import Mathlib

/-!
Verification of the variational-Bayes Gaussian-mixture engine
(`pypmc/cluster/variational.py`).

The numerical code is embedded shallowly over `ℚ`: floating-point values
become exact rationals, and the transcendental primitives the algorithm
calls (`digamma`, `log`, `exp`, matrix inverse/determinant, the float
constant `pi` and the regularization floor `tiny`) are collected in a
record of abstract functions, since none of the claims depend on their
numeric values.  Fallible code returns `Except`.
-/

set_option maxRecDepth 4000

/-! ## Convergence controller (`GaussianInference.run`)

The loop body of `run` only interacts with the rest of the engine through
`likelihood_bound`, `update`, `prune` and the component count `K`, so the
controller is modelled over an abstract engine interface. -/

/-- The operations of the engine that `run` calls, abstracted over the
state type.  `likelihood_bound` is `GaussianInference.likelihood_bound`,
`update` is one M-step followed by one E-step, `prune` takes the
threshold, and `K` reads the current component count. -/
structure VBModel (σ : Type) where
  likelihood_bound : σ → ℚ
  update : σ → σ
  prune : ℚ → σ → σ
  K : σ → ℕ

/-- The Python loop's local variables: the engine state, `old_K`
(`None` before the first iteration), the value of the local `bound`
from the previous iteration (only read when `old_K` matches), and an
instrumentation counter recording how many times `likelihood_bound`
has been evaluated. -/
structure LoopState (σ : Type) where
  s : σ
  old_K : Option ℕ
  prevBound : ℚ
  boundEvals : ℕ
deriving DecidableEq

/-- Loop state at entry of the first iteration: `old_K = None`. -/
def initLoopState {σ : Type} (s : σ) : LoopState σ :=
  { s := s, old_K := none, prevBound := 0, boundEvals := 0 }

/-- The approximate-convergence test of `run` (lines 297-305):
`diff = bound - old_bound`; only if `diff > 0`, either
`|bound| < abs_tol` and then `|diff| < abs_tol`, or else
`|diff / bound| < rel_tol`.  (`/` is total on `ℚ` with `x / 0 = 0`;
the `bound = 0` division is unreachable in the else-branch whenever
`abs_tol > 0`.) -/
def approxConverged (old_bound bound rel_tol abs_tol : ℚ) : Bool :=
  let diff := bound - old_bound
  if 0 < diff then
    if |bound| < abs_tol then
      decide (|diff| < abs_tol)
    else
      decide (|diff / bound| < rel_tol)
  else
    false

/-- The baseline bound of one iteration of `run` (lines 276-279): the
previous iteration's `bound` is reused when `K == old_K`, otherwise
`likelihood_bound` is recomputed. -/
def baseline {σ : Type} (M : VBModel σ) (ls : LoopState σ) : ℚ :=
  if some (M.K ls.s) = ls.old_K then ls.prevBound
  else M.likelihood_bound ls.s

/-- One iteration of the `run` loop body (lines 276-309).  Returns
`true` when the iteration declares convergence (exact equality of the
bounds, or the approximate test), otherwise the loop state for the next
iteration: `old_K` is recorded *before* pruning, and `prune` is applied
last. -/
def runIter {σ : Type} (M : VBModel σ) (prune_t rel_tol abs_tol : ℚ)
    (ls : LoopState σ) : Bool × LoopState σ :=
  let old_bound := baseline M ls
  let evals := (if some (M.K ls.s) = ls.old_K then ls.boundEvals
                else ls.boundEvals + 1) + 1
  let s1 := M.update ls.s
  let bound := M.likelihood_bound s1
  if bound = old_bound then
    (true, { s := s1, old_K := ls.old_K, prevBound := bound, boundEvals := evals })
  else if approxConverged old_bound bound rel_tol abs_tol then
    (true, { s := s1, old_K := ls.old_K, prevBound := bound, boundEvals := evals })
  else
    let recorded_K := M.K s1
    (false, { s := M.prune prune_t s1, old_K := some recorded_K,
              prevBound := bound, boundEvals := evals })

/-- The `for i in range(1, iterations + 1)` loop of `run`, by remaining
fuel; `i` is the Python loop counter. -/
def runAux {σ : Type} (M : VBModel σ) (prune_t rel_tol abs_tol : ℚ) :
    ℕ → ℕ → LoopState σ → Option ℕ × LoopState σ
  | _, 0, ls => (none, ls)
  | i, fuel + 1, ls =>
      match runIter M prune_t rel_tol abs_tol ls with
      | (true, ls1) => (some i, ls1)
      | (false, ls1) => runAux M prune_t rel_tol abs_tol (i + 1) fuel ls1

/-- `GaussianInference.run(iterations, prune, rel_tol, abs_tol)`:
returns the 1-based iteration count at convergence, or `none`
("not converged"). -/
def VBrun {σ : Type} (M : VBModel σ) (iterations : ℕ)
    (prune_t rel_tol abs_tol : ℚ) (s : σ) : Option ℕ × LoopState σ :=
  runAux M prune_t rel_tol abs_tol 1 iterations (initLoopState s)

/-! ### Claims C1, C2, C6 about the controller -/

/-- C1 (counterexample): the claim states the approximate-convergence
test compares `abs_tol` against the *baseline* bound and divides `diff`
by the *baseline*; the code (lines 300-304) uses the *new* bound in both
places.  At `old_bound = 1`, `bound = 2`, `rel_tol = 1`, `abs_tol = 1`
the code declares convergence (`|diff/bound| = 1/2 < 1`) but the
claim's condition fails (`|diff/baseline| = 1`, not `< 1`). -/
theorem c1_counterexample :
    ¬ (approxConverged 1 2 1 1 = true ↔
        (0 < (2 : ℚ) - 1 ∧
          ((|(1 : ℚ)| < 1 ∧ |(2 : ℚ) - 1| < 1) ∨
            |((2 : ℚ) - 1) / 1| < 1))) := by
  intro h
  have h2 : |(1 : ℚ) / 2| < 1 := by
    rw [abs_of_pos] <;> norm_num
  have hl : approxConverged 1 2 1 1 = true := by
    norm_num [approxConverged, h2]
  have hr := h.mp hl
  norm_num at hr

/-- C1 (amended): approximate convergence is declared only when
`diff = bound - old_bound > 0`, and then exactly when either
`|bound| < abs_tol` and `|diff| < abs_tol`, or `abs_tol ≤ |bound|` and
`|diff / bound| < rel_tol`, where `bound` is the *new* bound computed
after the update (not the baseline).  The hypothesis `0 < abs_tol`
keeps the relative branch away from the `bound = 0` division, where the
Python code would raise instead of evaluating `x / 0 = 0`. -/
theorem c1_approx_convergence (old_bound bound rel_tol abs_tol : ℚ)
    (_habs : 0 < abs_tol) :
    approxConverged old_bound bound rel_tol abs_tol = true ↔
      (0 < bound - old_bound ∧
        ((|bound| < abs_tol ∧ |bound - old_bound| < abs_tol) ∨
          (abs_tol ≤ |bound| ∧ |(bound - old_bound) / bound| < rel_tol))) := by
  simp only [approxConverged]
  split_ifs with h1 h2
  · simp only [decide_eq_true_eq]
    constructor
    · intro h; exact ⟨h1, Or.inl ⟨h2, h⟩⟩
    · rintro ⟨-, h⟩
      rcases h with ⟨-, h⟩ | ⟨hc, -⟩
      · exact h
      · exact absurd h2 (not_lt.mpr hc)
  · simp only [decide_eq_true_eq]
    constructor
    · intro h; exact ⟨h1, Or.inr ⟨not_lt.mp h2, h⟩⟩
    · rintro ⟨-, h⟩
      rcases h with ⟨hc, -⟩ | ⟨-, h⟩
      · exact absurd hc h2
      · exact h
  · simp only [false_iff, not_and]
    intro h
    exact absurd h h1

/-- Witness for `c1_approx_convergence` at `old_bound = 1`, `bound = 2`,
`rel_tol = 1`, `abs_tol = 1`. -/
theorem c1_approx_convergence_witness :
    (0 : ℚ) < 1 ∧
    (approxConverged 1 2 1 1 = true ↔
      (0 < (2 : ℚ) - 1 ∧
        ((|(2 : ℚ)| < 1 ∧ |(2 : ℚ) - 1| < 1) ∨
          (1 ≤ |(2 : ℚ)| ∧ |((2 : ℚ) - 1) / 2| < 1)))) :=
  ⟨by norm_num, c1_approx_convergence 1 2 1 1 (by norm_num)⟩

/-- C2: in every iteration of `run`, the baseline is the previous
iteration's post-update bound, reused without a fresh bound evaluation,
if and only if `K` is unchanged since the previous iteration; on the
first iteration (`old_K = None`) and after any `K` change the baseline
is freshly recomputed.  Given a non-converging iteration
`runIter ls = (false, ls')`: the recorded `old_K` is the pre-pruning
component count, `prevBound` is the post-update bound, the next
baseline is the reused `prevBound` exactly when `K` is unchanged, and
the next iteration performs one bound evaluation in the reuse case and
two otherwise. -/
theorem c2_baseline_reuse {σ : Type} (M : VBModel σ)
    (prune_t rel_tol abs_tol : ℚ) (s : σ) (ls ls' : LoopState σ)
    (hstep : runIter M prune_t rel_tol abs_tol ls = (false, ls')) :
    baseline M (initLoopState s) = M.likelihood_bound s ∧
    ls'.old_K = some (M.K (M.update ls.s)) ∧
    ls'.prevBound = M.likelihood_bound (M.update ls.s) ∧
    (baseline M ls' =
      if M.K ls'.s = M.K (M.update ls.s) then M.likelihood_bound (M.update ls.s)
      else M.likelihood_bound ls'.s) ∧
    (runIter M prune_t rel_tol abs_tol ls').2.boundEvals =
      ls'.boundEvals + (if M.K ls'.s = M.K (M.update ls.s) then 1 else 2) := by
  have hinit : baseline M (initLoopState s) = M.likelihood_bound s := by
    simp [baseline, initLoopState]
  simp only [runIter] at hstep
  split at hstep
  · simp at hstep
  · split at hstep
    · simp at hstep
    · simp only [Prod.mk.injEq, true_and] at hstep
      subst hstep
      refine ⟨hinit, rfl, rfl, ?_, ?_⟩
      · by_cases hk :
          M.K (M.prune prune_t (M.update ls.s)) = M.K (M.update ls.s)
        · simp [baseline, hk]
        · simp [baseline, hk]
      · by_cases hk :
          M.K (M.prune prune_t (M.update ls.s)) = M.K (M.update ls.s)
        · simp only [runIter, hk]
          split_ifs <;> simp
        · simp only [runIter]
          have hne :
              ¬ some (M.K (M.prune prune_t (M.update ls.s))) =
                some (M.K (M.update ls.s)) := by
            simpa using hk
          simp only [hne, if_neg, hk]
          split_ifs <;> simp

/-- A tiny concrete engine over `σ = ℕ` used to witness the controller
theorems: the bound is the state itself and an update adds 10. -/
def natModel : VBModel ℕ where
  likelihood_bound := fun n => (n : ℚ)
  update := fun n => n + 10
  prune := fun _ n => n
  K := fun _ => 1

/-- Witness for `c2_baseline_reuse`: one concrete non-converging
iteration of `natModel` records `old_K` and `prevBound` as claimed. -/
theorem c2_baseline_reuse_witness :
    runIter natModel 1 1 1 (initLoopState 0) =
      (false, { s := 10, old_K := some 1, prevBound := 10, boundEvals := 2 }) ∧
    ({ s := 10, old_K := some 1, prevBound := 10, boundEvals := 2 } :
        LoopState ℕ).prevBound =
      natModel.likelihood_bound (natModel.update (initLoopState (σ := ℕ) 0).s) := by
  have h : runIter natModel 1 1 1 (initLoopState 0) =
      (false, { s := 10, old_K := some 1, prevBound := 10, boundEvals := 2 }) := by
    norm_num [runIter, natModel, baseline, initLoopState, approxConverged]
    decide
  exact ⟨h,
    (c2_baseline_reuse natModel 1 1 1 0 (initLoopState 0)
      { s := 10, old_K := some 1, prevBound := 10, boundEvals := 2 } h).2.2.1⟩

/-- Range of the loop counter: `runAux` starting at counter `i` with
`fuel` remaining iterations either reports not-converged or an
iteration index in `[i, i + fuel)`. -/
theorem runAux_range {σ : Type} (M : VBModel σ)
    (prune_t rel_tol abs_tol : ℚ) :
    ∀ (fuel i : ℕ) (ls : LoopState σ),
      (runAux M prune_t rel_tol abs_tol i fuel ls).1 = none ∨
      ∃ j, (runAux M prune_t rel_tol abs_tol i fuel ls).1 = some j ∧
        i ≤ j ∧ j < i + fuel
  | 0, i, ls => Or.inl rfl
  | fuel + 1, i, ls => by
      simp only [runAux]
      cases hstep : runIter M prune_t rel_tol abs_tol ls with
      | mk conv ls1 =>
        cases conv
        · rcases runAux_range M prune_t rel_tol abs_tol fuel (i + 1) ls1 with
            h | ⟨j, hj, hij, hjf⟩
          · exact Or.inl h
          · exact Or.inr ⟨j, hj, by omega, by omega⟩
        · exact Or.inr ⟨i, rfl, le_refl i, by omega⟩

/-- C6: `run` returns the current iteration count `i` whenever the newly
computed bound exactly equals the baseline bound, and over a full run it
either reports "not converged" (`none`, not an error) or an iteration
count `i` with `1 ≤ i ≤ iterations`. -/
theorem c6_exact_equality_and_exhaustion {σ : Type} (M : VBModel σ)
    (prune_t rel_tol abs_tol : ℚ) :
    (∀ (i fuel : ℕ) (ls : LoopState σ),
        M.likelihood_bound (M.update ls.s) = baseline M ls →
        (runAux M prune_t rel_tol abs_tol i (fuel + 1) ls).1 = some i) ∧
    (∀ (iterations : ℕ) (s : σ),
        (VBrun M iterations prune_t rel_tol abs_tol s).1 = none ∨
        ∃ i, (VBrun M iterations prune_t rel_tol abs_tol s).1 = some i ∧
          1 ≤ i ∧ i ≤ iterations) := by
  constructor
  · intro i fuel ls h
    simp only [runAux, runIter, h, if_pos]
  · intro iterations s
    rcases runAux_range M prune_t rel_tol abs_tol iterations 1
        (initLoopState s) with h | ⟨j, hj, h1, h2⟩
    · exact Or.inl h
    · exact Or.inr ⟨j, hj, h1, by omega⟩

/-- A concrete engine whose bound never moves, used to witness the
exact-equality return of `run`. -/
def constModel : VBModel ℕ where
  likelihood_bound := fun _ => 5
  update := fun n => n
  prune := fun _ n => n
  K := fun _ => 1

/-- Witness for `c6_exact_equality_and_exhaustion`: with a constant
bound, the first iteration hits exact equality and `run` returns 1. -/
theorem c6_exact_equality_witness :
    (runAux constModel 1 1 1 1 (2 + 1) (initLoopState 0)).1 = some 1 :=
  (c6_exact_equality_and_exhaustion constModel 1 1 1).1 1 2
    (initLoopState 0) (by simp [constModel, baseline, initLoopState])

/-! ## Parameter validation and broadcasting
(`GaussianInference.set_variational_parameters`, `_check_K_vector`)

A keyword value for the scalar-family hyperparameters is either a Python
scalar or a 1-d array; mean parameters are a 1-d or 2-d array; `W0`/`W`
are a 2-d or 3-d array.  Absent keywords (`None`) select the defaults of
the source. -/

/-- A scalar-or-vector keyword value (`alpha0`, `alpha`, `beta0`,
`beta`, `nu0`, `nu`). -/
inductive PyVal where
  | scalar : ℚ → PyVal
  | vec : List ℚ → PyVal
deriving DecidableEq

/-- A 1-d or 2-d array keyword value (`m0`, `m`). -/
inductive PyArr2 where
  | vec : List ℚ → PyArr2
  | mat : List (List ℚ) → PyArr2
deriving DecidableEq

/-- A 2-d or 3-d array keyword value (`W0`, `W`). -/
inductive PyArr3 where
  | mat2 : List (List ℚ) → PyArr3
  | arr3 : List (List (List ℚ)) → PyArr3
deriving DecidableEq

/-- `GaussianInference._check_K_vector(name, min)` (lines 525-532):
raise unless the value is a length-`K` vector all of whose entries
exceed `minv`.  The vector embedding is always 1-d, so the rank check of
the source cannot fire; on success the checked vector is returned so
the caller can bind it. -/
def check_K_vector (K : ℕ) (name : String) (minv : ℚ) (v : List ℚ) :
    Except String (List ℚ) :=
  if v.length ≠ K then
    Except.error ("len(" ++ name ++ ")=" ++ toString v.length ++
      " does not match K=" ++ toString K)
  else if ¬ (∀ x ∈ v, minv < x) then
    Except.error ("All elements of " ++ name ++ " must exceed " ++
      toString minv)
  else
    Except.ok v

/-- Prior scalar-family parameter (`alpha0`, `beta0`, `nu0`, lines
442-447, 453-458, 467-472): a scalar is broadcast to `K` copies
(`value * ones(K)`) before `_check_K_vector` runs; a vector is taken
verbatim. -/
def setPriorVector (K : ℕ) (name : String) (minv dflt : ℚ)
    (p : Option PyVal) : Except String (List ℚ) :=
  let v := match p.getD (PyVal.scalar dflt) with
    | PyVal.scalar a => List.replicate K a
    | PyVal.vec v => v
  check_K_vector K name minv v

/-- Posterior scalar-family parameter (`alpha`, `beta`, `nu`, lines
448-450, 459-461, 473-475): the value is passed to `_check_K_vector`
with **no** broadcasting step; a bare scalar has no `.shape` attribute
and the Python call fails (AttributeError), modelled as the
not-a-vector error of `_check_K_vector`. -/
def setPosteriorVector (K : ℕ) (name : String) (minv : ℚ)
    (dflt : List ℚ) (p : Option PyVal) : Except String (List ℚ) :=
  match p.getD (PyVal.vec dflt) with
  | PyVal.scalar _ =>
      Except.error (name ++ " is not a vector but has shape ()")
  | PyVal.vec v => check_K_vector K name minv v

/-- `m0` handling (lines 477-481 and the shape check of 489-491): a
length-`D` vector is stacked into `K` identical rows; then the result
must have shape `(K, D)`. -/
def setM0 (K D : ℕ) (p : Option PyArr2) : Except String (List (List ℚ)) :=
  let m0 := p.getD (PyArr2.vec (List.replicate D 0))
  let m0 := match m0 with
    | PyArr2.vec v =>
        if v.length = D then PyArr2.mat (List.replicate K v) else m0
    | PyArr2.mat _ => m0
  match m0 with
  | PyArr2.mat M =>
      if M.length = K ∧ ∀ row ∈ M, row.length = D then Except.ok M
      else Except.error "Shape of m0 does not match (K,d)"
  | PyArr2.vec _ => Except.error "Shape of m0 does not match (K,d)"

/-- `numpy.linspace(a, b, n)`: `n` equally spaced points from `a` to
`b` inclusive. -/
def linspaceQ (a b : ℚ) (n : ℕ) : List ℚ :=
  if n ≤ 1 then List.replicate n a
  else (List.range n).map fun i => a + (b - a) * i / (n - 1)

/-- `.reshape((K, D))` of a flat length-`K*D` vector. -/
def reshapeKD (K D : ℕ) (l : List ℚ) : List (List ℚ) :=
  (List.range K).map fun i => (l.drop (i * D)).take D

/-- `m` handling (lines 484-491): default is `linspace(-1, 1, K*D)`
reshaped to `(K, D)`; a supplied value is used as-is (no broadcasting)
and must have shape `(K, D)`. -/
def setM (K D : ℕ) (p : Option PyArr2) : Except String (List (List ℚ)) :=
  let m := match p with
    | none => PyArr2.mat (reshapeKD K D (linspaceQ (-1) 1 (K * D)))
    | some q => q
  match m with
  | PyArr2.mat M =>
      if M.length = K ∧ ∀ row ∈ M, row.length = D then Except.ok M
      else Except.error "Shape of m does not match (K,d)"
  | PyArr2.vec _ => Except.error "Shape of m does not match (K,d)"

/-- The `D × D` identity matrix (`numpy.eye`). -/
def eyeQ (D : ℕ) : List (List ℚ) :=
  (List.range D).map fun i => (List.range D).map fun j =>
    if i = j then 1 else 0

/-- Shape test for a `D × D` matrix. -/
def isSquare (D : ℕ) (M : List (List ℚ)) : Prop :=
  M.length = D ∧ ∀ row ∈ M, row.length = D

instance (D : ℕ) (M : List (List ℚ)) : Decidable (isSquare D M) := by
  unfold isSquare; infer_instance

/-- `W0` handling (lines 494-509): `None` gives the identity with
itself as cached inverse, a single `D × D` matrix is inverted and both
are broadcast to `K` copies, a `(K, D, D)` array is taken verbatim with
each matrix inverted, anything else raises.  Returns `(W0, inv_W0)`;
matrix inversion is the abstract `matInv`. -/
def setW0 (matInv : List (List ℚ) → List (List ℚ)) (K D : ℕ)
    (p : Option PyArr3) :
    Except String (List (List (List ℚ)) × List (List (List ℚ))) :=
  match p with
  | none =>
      Except.ok (List.replicate K (eyeQ D), List.replicate K (eyeQ D))
  | some (PyArr3.mat2 M) =>
      if isSquare D M then
        Except.ok (List.replicate K M, List.replicate K (matInv M))
      else
        Except.error
          "W0 is neither None, nor a (dim, dim) array, nor a (K, dim, dim) array."
  | some (PyArr3.arr3 A) =>
      if A.length = K ∧ ∀ M ∈ A, isSquare D M then
        Except.ok (A, A.map matInv)
      else
        Except.error
          "W0 is neither None, nor a (dim, dim) array, nor a (K, dim, dim) array."

/-- `W` handling (lines 510-512): default `W0.copy()`; a supplied value
is used as-is and must have shape `(K, D, D)`. -/
def setW (K D : ℕ) (W0 : List (List (List ℚ))) (p : Option PyArr3) :
    Except String (List (List (List ℚ))) :=
  match p with
  | none =>
      if W0.length = K ∧ ∀ M ∈ W0, isSquare D M then Except.ok W0
      else Except.error "Shape of W does not match (K, d, d)"
  | some (PyArr3.mat2 _) =>
      Except.error "Shape of W does not match (K, d, d)"
  | some (PyArr3.arr3 A) =>
      if A.length = K ∧ ∀ M ∈ A, isSquare D M then Except.ok A
      else Except.error "Shape of W does not match (K, d, d)"

/-- The keyword arguments of `set_variational_parameters`; `none`
selects the source's default. -/
structure VBKwargs where
  alpha0 : Option PyVal := none
  alpha : Option PyVal := none
  beta0 : Option PyVal := none
  beta : Option PyVal := none
  nu0 : Option PyVal := none
  nu : Option PyVal := none
  m0 : Option PyArr2 := none
  m : Option PyArr2 := none
  W0 : Option PyArr3 := none
  W : Option PyArr3 := none

/-- The fully shaped, validated parameter set produced by
`set_variational_parameters`. -/
structure VBParams where
  alpha0 : List ℚ
  alpha : List ℚ
  beta0 : List ℚ
  beta : List ℚ
  nu0 : List ℚ
  nu : List ℚ
  m0 : List (List ℚ)
  m : List (List ℚ)
  W0 : List (List (List ℚ))
  inv_W0 : List (List (List ℚ))
  W : List (List (List ℚ))

/-- `GaussianInference.set_variational_parameters` (lines 440-514) in
source order: `alpha0`, `alpha`, `beta0`, `beta`, `nu0`, `nu`, `m0`,
`m`, `W0` (with cached inverse), `W`.  Defaults: `1e-5` for
`alpha0`/`beta0`, `(D-1) + 1e-5` for `nu0`, the prior vector for each
posterior, zeros for `m0`, the linspace grid for `m`, identity for
`W0`, `W0` for `W`; the first failing check aborts the call. -/
def set_variational_parameters
    (matInv : List (List ℚ) → List (List ℚ)) (K D : ℕ)
    (kw : VBKwargs) : Except String VBParams := do
  let alpha0 ← setPriorVector K "alpha0" 0 (1/100000) kw.alpha0
  let alpha ← setPosteriorVector K "alpha" 0 alpha0 kw.alpha
  let beta0 ← setPriorVector K "beta0" 0 (1/100000) kw.beta0
  let beta ← setPosteriorVector K "beta" 0 beta0 kw.beta
  let nu0 ← setPriorVector K "nu0" ((D : ℚ) - 1)
    (((D : ℚ) - 1) + 1/100000) kw.nu0
  let nu ← setPosteriorVector K "nu" ((D : ℚ) - 1) nu0 kw.nu
  let m0 ← setM0 K D kw.m0
  let m ← setM K D kw.m
  let W0pair ← setW0 matInv K D kw.W0
  let W ← setW K D W0pair.1 kw.W
  Except.ok
    { alpha0 := alpha0, alpha := alpha, beta0 := beta0,
      beta := beta, nu0 := nu0, nu := nu, m0 := m0, m := m,
      W0 := W0pair.1, inv_W0 := W0pair.2, W := W }

/-! ### Claims C4, C5 about validation and broadcasting -/

/-- C4 (counterexample): the claim predicts a scalar posterior `alpha`
is broadcast to a length-`K` vector and accepted; the code passes the
posterior value to `_check_K_vector` with no broadcasting step
(line 448-449), so a bare scalar fails instead. -/
theorem c4_counterexample :
    ¬ (setPosteriorVector 3 "alpha" 0 [1, 1, 1] (some (PyVal.scalar 2)) =
        Except.ok (List.replicate 3 (2 : ℚ))) := by
  simp [setPosteriorVector]

/-- C4 (amended): broadcasting applies to the *prior* hyperparameters
only: a scalar `alpha0`/`beta0`/`nu0` becomes a length-`K` vector, a
single `D`-vector `m0` becomes `K` identical rows, and a single
`D × D` matrix `W0` becomes `K` copies (with its inverse); a full
`K`-sized value is accepted verbatim for priors and posteriors alike;
a scalar posterior (`alpha`, `beta`, `nu`), a `D`-vector posterior
mean `m`, and any wrongly sized value fail with an error. -/
theorem c4_broadcast_rules :
    (∀ (K : ℕ) (name : String) (minv dflt a : ℚ), minv < a →
      setPriorVector K name minv dflt (some (PyVal.scalar a)) =
        Except.ok (List.replicate K a)) ∧
    (∀ (K : ℕ) (name : String) (minv dflt : ℚ) (v : List ℚ),
      v.length = K → (∀ x ∈ v, minv < x) →
      setPriorVector K name minv dflt (some (PyVal.vec v)) = Except.ok v) ∧
    (∀ (K : ℕ) (name : String) (minv dflt : ℚ) (v : List ℚ),
      v.length ≠ K →
      ∃ e, setPriorVector K name minv dflt (some (PyVal.vec v)) =
        Except.error e) ∧
    (∀ (K : ℕ) (name : String) (minv : ℚ) (dflt : List ℚ) (a : ℚ),
      ∃ e, setPosteriorVector K name minv dflt (some (PyVal.scalar a)) =
        Except.error e) ∧
    (∀ (K : ℕ) (name : String) (minv : ℚ) (dflt v : List ℚ),
      v.length = K → (∀ x ∈ v, minv < x) →
      setPosteriorVector K name minv dflt (some (PyVal.vec v)) =
        Except.ok v) ∧
    (∀ (K D : ℕ) (v : List ℚ), v.length = D →
      setM0 K D (some (PyArr2.vec v)) = Except.ok (List.replicate K v)) ∧
    (∀ (K D : ℕ) (v : List ℚ), v.length ≠ D →
      ∃ e, setM0 K D (some (PyArr2.vec v)) = Except.error e) ∧
    (∀ (K D : ℕ) (v : List ℚ),
      ∃ e, setM K D (some (PyArr2.vec v)) = Except.error e) ∧
    (∀ (matInv : List (List ℚ) → List (List ℚ)) (K D : ℕ)
        (M : List (List ℚ)), isSquare D M →
      setW0 matInv K D (some (PyArr3.mat2 M)) =
        Except.ok (List.replicate K M, List.replicate K (matInv M))) ∧
    (∀ (matInv : List (List ℚ) → List (List ℚ)) (K D : ℕ)
        (A : List (List (List ℚ))),
      A.length = K → (∀ M ∈ A, isSquare D M) →
      setW0 matInv K D (some (PyArr3.arr3 A)) =
        Except.ok (A, A.map matInv)) := by
  refine ⟨?_, ?_, ?_, ?_, ?_, ?_, ?_, ?_, ?_, ?_⟩
  · intro K name minv dflt a h
    have hall : ∀ x ∈ List.replicate K a, minv < x := fun x hx =>
      (List.eq_of_mem_replicate hx) ▸ h
    unfold setPriorVector check_K_vector
    simp only [Option.getD_some]
    rw [if_neg (by simp), if_neg (not_not_intro hall)]
  · intro K name minv dflt v hlen hall
    unfold setPriorVector check_K_vector
    simp only [Option.getD_some]
    rw [if_neg (not_not_intro hlen), if_neg (not_not_intro hall)]
  · intro K name minv dflt v hlen
    refine ⟨"len(" ++ name ++ ")=" ++ toString v.length ++
      " does not match K=" ++ toString K, ?_⟩
    unfold setPriorVector check_K_vector
    simp only [Option.getD_some]
    rw [if_pos hlen]
  · intro K name minv dflt a
    exact ⟨_, rfl⟩
  · intro K name minv dflt v hlen hall
    unfold setPosteriorVector check_K_vector
    simp only [Option.getD_some]
    rw [if_neg (not_not_intro hlen), if_neg (not_not_intro hall)]
  · intro K D v hlen
    have hsh : (List.replicate K v).length = K ∧
        ∀ row ∈ List.replicate K v, row.length = D :=
      ⟨List.length_replicate K v, fun row hr =>
        (List.eq_of_mem_replicate hr) ▸ hlen⟩
    unfold setM0
    simp only [Option.getD_some, if_pos hlen, if_pos hsh]
  · intro K D v hlen
    refine ⟨"Shape of m0 does not match (K,d)", ?_⟩
    unfold setM0
    simp only [Option.getD_some, if_neg hlen]
  · intro K D v
    exact ⟨_, rfl⟩
  · intro matInv K D M h
    simp only [setW0, if_pos h]
  · intro matInv K D A hlen hsq
    have hc : A.length = K ∧ ∀ M ∈ A, isSquare D M := ⟨hlen, hsq⟩
    simp only [setW0, if_pos hc]

/-- Witness for `c4_broadcast_rules`: a scalar prior `alpha0 = 2` with
`K = 3` is broadcast to `[2, 2, 2]`, and a `D`-vector `m0` with `D = 2`
is stacked into 3 identical rows. -/
theorem c4_broadcast_rules_witness :
    (0 : ℚ) < 2 ∧ ([(5 : ℚ), 6].length = 2) ∧
    setPriorVector 3 "alpha0" 0 (1/100000) (some (PyVal.scalar 2)) =
      Except.ok (List.replicate 3 (2 : ℚ)) ∧
    setM0 3 2 (some (PyArr2.vec [5, 6])) =
      Except.ok (List.replicate 3 [(5 : ℚ), 6]) :=
  ⟨by norm_num, rfl,
    c4_broadcast_rules.1 3 "alpha0" 0 (1/100000) 2 (by norm_num),
    c4_broadcast_rules.2.2.2.2.2.1 3 2 [5, 6] rfl⟩

/-- C5: a vector hyperparameter of the wrong length fails with the
error `len(<name>)=<len> does not match K=<K>`, which contains the
array's name and the expected length `K`; an entry at or below the
domain minimum (`0` for `alpha`/`beta` families, `D - 1` for `nu`
families) fails with `All elements of <name> must exceed <min>`, which
also names the array; and a malformed `alpha0` of length `K - 1` makes
the whole `set_variational_parameters` call fail with that same
length-mismatch message (Scenario D). -/
theorem c5_validation_errors (K : ℕ) (name : String) (minv : ℚ)
    (v : List ℚ) :
    (v.length ≠ K →
      check_K_vector K name minv v =
        Except.error ("len(" ++ name ++ ")=" ++ toString v.length ++
          " does not match K=" ++ toString K) ∧
      (∃ pre suf, "len(" ++ name ++ ")=" ++ toString v.length ++
          " does not match K=" ++ toString K = pre ++ name ++ suf) ∧
      (∃ pre, "len(" ++ name ++ ")=" ++ toString v.length ++
          " does not match K=" ++ toString K = pre ++ toString K)) ∧
    (v.length = K → (∃ x ∈ v, x ≤ minv) →
      check_K_vector K name minv v =
        Except.error ("All elements of " ++ name ++ " must exceed " ++
          toString minv) ∧
      ∃ pre suf, "All elements of " ++ name ++ " must exceed " ++
          toString minv = pre ++ name ++ suf) ∧
    (∀ (matInv : List (List ℚ) → List (List ℚ)) (D : ℕ) (kw : VBKwargs),
      kw.alpha0 = some (PyVal.vec v) → v.length ≠ K →
      set_variational_parameters matInv K D kw =
        Except.error ("len(alpha0)=" ++ toString v.length ++
          " does not match K=" ++ toString K)) := by
  refine ⟨?_, ?_, ?_⟩
  · intro h
    refine ⟨?_, ?_, ⟨_, rfl⟩⟩
    · unfold check_K_vector
      rw [if_pos h]
    · refine ⟨"len(", ")=" ++ toString v.length ++
        " does not match K=" ++ toString K, ?_⟩
      simp only [String.append_assoc]
  · intro hlen hx
    have hnall : ¬ (∀ x ∈ v, minv < x) := by
      obtain ⟨x, hxv, hle⟩ := hx
      intro hall
      exact absurd (hall x hxv) (not_lt.mpr hle)
    refine ⟨?_, "All elements of ", " must exceed " ++ toString minv, ?_⟩
    · unfold check_K_vector
      rw [if_neg (not_not_intro hlen), if_pos hnall]
    · simp only [String.append_assoc]
  · intro matInv D kw hkw h
    have hA : ("len(" ++ "alpha0" ++ ")=" : String) = "len(alpha0)=" := by
      decide
    have h1 : setPriorVector K "alpha0" 0 (1/100000) kw.alpha0 =
        Except.error ("len(alpha0)=" ++ toString v.length ++
          " does not match K=" ++ toString K) := by
      rw [hkw]
      unfold setPriorVector check_K_vector
      simp only [Option.getD_some]
      rw [if_pos h, hA]
    unfold set_variational_parameters
    rw [h1]
    rfl

/-- Witness for `c5_validation_errors` at `K = 3`, `alpha0 = [1, 1]`
(Scenario D: length `K - 1`). -/
theorem c5_validation_errors_witness :
    check_K_vector 3 "alpha0" 0 [1, 1] =
      Except.error "len(alpha0)=2 does not match K=3" := by
  have h := (c5_validation_errors 3 "alpha0" 0 [1, 1]).1 (by decide)
  exact h.1.trans (congrArg Except.error (by decide))

/-! ## The engine state and the E/M machinery

Dense `numpy` arrays become nested lists over `ℚ`; the transcendental
primitives are abstract.  Out-of-range indexing, which would raise in
`numpy`, is modelled by `getD` defaults; the theorems below constrain
shapes where a claim depends on them. -/

/-- Elementwise sum of two equal-length vectors. -/
def vecAdd (v w : List ℚ) : List ℚ := (v.zip w).map fun p => p.1 + p.2

/-- Elementwise difference of two equal-length vectors. -/
def vecSub (v w : List ℚ) : List ℚ := (v.zip w).map fun p => p.1 - p.2

/-- Scalar multiple of a vector. -/
def scaleVec (c : ℚ) (v : List ℚ) : List ℚ := v.map fun x => c * x

/-- Dot product. -/
def dotQ (v w : List ℚ) : ℚ := ((v.zip w).map fun p => p.1 * p.2).sum

/-- Matrix-vector product. -/
def matVec (M : List (List ℚ)) (v : List ℚ) : List ℚ :=
  M.map fun row => dotQ row v

/-- The quadratic form `tmp.dot(W).dot(tmp)` (equal for the square `W`
used by the source whether grouped as `(vᵀW)v` or `vᵀ(Wv)`). -/
def quadForm (M : List (List ℚ)) (v : List ℚ) : ℚ := dotQ v (matVec M v)

/-- Outer product `numpy.outer`/`einsum('i,j')`. -/
def outerQ (v w : List ℚ) : List (List ℚ) := v.map fun a => w.map fun b => a * b

/-- Scalar multiple of a matrix. -/
def scaleMat (c : ℚ) (M : List (List ℚ)) : List (List ℚ) := M.map (scaleVec c)

/-- Elementwise sum of two matrices. -/
def matAdd (A B : List (List ℚ)) : List (List ℚ) :=
  (A.zip B).map fun p => vecAdd p.1 p.2

/-- Zero vector of length `D`. -/
def zerosVec (D : ℕ) : List ℚ := List.replicate D 0

/-- Zero `N × D` matrix. -/
def zerosMat (N D : ℕ) : List (List ℚ) := List.replicate N (zerosVec D)

/-- Sum of a list of `D`-vectors. -/
def vecSumL (D : ℕ) (l : List (List ℚ)) : List ℚ := l.foldl vecAdd (zerosVec D)

/-- Sum of a list of `D × D` matrices. -/
def matSumL (D : ℕ) (l : List (List (List ℚ))) : List (List ℚ) :=
  l.foldl matAdd (zerosMat D D)

/-- `row.max()` (`numpy.max` along an axis; rows are nonempty whenever
`K ≥ 1`). -/
def rowMax (l : List ℚ) : ℚ := l.foldl max (l.headD 0)

/-- Column sums `einsum('nk->k', r)` of an `N × K` matrix. -/
def colSums (K : ℕ) (r : List (List ℚ)) : List ℚ :=
  (List.range K).map fun k => (r.map fun row => row.getD k 0).sum

/-- Modelled from the spec: `pypmc.tools._regularize.regularize` is not
among the sources; the spec describes it as a floor that keeps entries
away from zero ("never exactly 0 — floored by a regularization step";
"near-zero denominators ... silently floored via a regularization step
rather than raising"), modelled as an elementwise maximum with the
positive floor `tiny`. -/
def regularize (tiny : ℚ) (v : List ℚ) : List ℚ := v.map fun x => max x tiny

/-- The numerical primitives of the engine, abstracted: `digamma`,
`log`, `exp` from `scipy`/`math`, the float `pi`, matrix inverse and
determinant from `numpy.linalg`, and the regularization floor. -/
structure NumPrims where
  digamma : ℚ → ℚ
  logQ : ℚ → ℚ
  expQ : ℚ → ℚ
  piQ : ℚ
  matInv : List (List ℚ) → List (List ℚ)
  matDet : List (List ℚ) → ℚ
  tiny : ℚ
deriving Inhabited

/-- The mutable attributes of a `GaussianInference` object.  `weights`
is `some w` exactly when the instance was constructed with sample
weights, which rebinds the four weighted update methods. -/
structure VBState where
  data : List (List ℚ)
  weights : Option (List ℚ)
  K : ℕ
  N : ℕ
  dim : ℕ
  alpha0 : List ℚ
  alpha : List ℚ
  beta0 : List ℚ
  beta : List ℚ
  nu0 : List ℚ
  nu : List ℚ
  m0 : List (List ℚ)
  m : List (List ℚ)
  W0 : List (List (List ℚ))
  inv_W0 : List (List (List ℚ))
  W : List (List (List ℚ))
  expectation_det_ln_lambda : List ℚ
  expectation_ln_pi : List ℚ
  expectation_gauss_exponent : List (List ℚ)
  log_rho : List (List ℚ)
  r : List (List ℚ)
  N_comp : List ℚ
  inv_N_comp : List ℚ
  x_mean_comp : List (List ℚ)
  S : List (List (List ℚ))
deriving DecidableEq

/-- `_update_expectation_det_ln_lambda` (10.65): per component the
multivariate digamma sum plus `dim·log 2 + log det W`.  (The source's
assertion that every determinant is positive aborts the call on
violation; the embedding models the successful path.) -/
def update_expectation_det_ln_lambda (P : NumPrims) (s : VBState) : VBState :=
  let dets := s.W.map P.matDet
  { s with expectation_det_ln_lambda :=
      (s.nu.zip dets).map fun p =>
        ((List.range s.dim).map fun i =>
          P.digamma ((p.1 + 1 - ((i : ℚ) + 1)) / 2)).sum
        + (s.dim : ℚ) * P.logQ 2 + P.logQ p.2 }

/-- `_update_expectation_gauss_exponent` (10.64):
`e[n,k] = dim/beta_k + nu_k * (x_n - m_k)ᵀ W_k (x_n - m_k)`. -/
def update_expectation_gauss_exponent (s : VBState) : VBState :=
  { s with expectation_gauss_exponent :=
      s.data.map fun x =>
        (List.range s.K).map fun k =>
          let tmp := vecSub x (s.m.getD k [])
          (s.dim : ℚ) / s.beta.getD k 0 +
            s.nu.getD k 0 * quadForm (s.W.getD k []) tmp }

/-- `_update_expectation_ln_pi` (10.66):
`digamma(alpha) - digamma(alpha.sum())`. -/
def update_expectation_ln_pi (P : NumPrims) (s : VBState) : VBState :=
  { s with expectation_ln_pi :=
      s.alpha.map fun a => P.digamma a - P.digamma s.alpha.sum }

/-- `_update_log_rho` (10.46):
`-0.5·e[n,k] + ln_pi[k] + 0.5·detln[k] - 0.5·dim·log(2π)`. -/
def update_log_rho (P : NumPrims) (s : VBState) : VBState :=
  let lr := s.expectation_gauss_exponent.map fun row =>
    (row.zip (s.expectation_ln_pi.zip s.expectation_det_ln_lambda)).map fun p =>
      -(1/2) * p.1 + p.2.1 + (1/2) * p.2.2 -
        (1/2) * (s.dim : ℚ) * P.logQ (2 * P.piQ)
  { s with log_rho := lr }

/-- `_update_r` (10.49): recompute `log_rho`, subtract each row's
maximum, exponentiate, normalize per row, then floor the result
(`regularize(self.r)`). -/
def update_r (P : NumPrims) (s : VBState) : VBState :=
  let s := update_log_rho P s
  let r := s.log_rho.map fun row =>
    let mx := rowMax row
    let rho := row.map fun x => P.expQ (x - mx)
    let normalization := rho.sum
    rho.map fun x => x / normalization
  { s with r := r.map (regularize P.tiny) }

/-- `_update_N_comp` (10.51) and its weighted variant
(`einsum('n,nk->k', weights, r)`): column sums of `r`, floored, with
cached reciprocals. -/
def update_N_comp_st (P : NumPrims) (s : VBState) : VBState :=
  match s.weights with
  | none =>
      let nc := regularize P.tiny (colSums s.K s.r)
      { s with N_comp := nc, inv_N_comp := nc.map fun x => 1 / x }
  | some w =>
      let nc := regularize P.tiny
        (colSums s.K ((w.zip s.r).map fun p => scaleVec p.1 p.2))
      { s with N_comp := nc, inv_N_comp := nc.map fun x => 1 / x }

/-- `_update_x_mean_comp` (10.52) and its weighted variant:
`x̄_k = (1/N_k) Σ_n [w_n] r_nk x_n`. -/
def update_x_mean_comp_st (s : VBState) : VBState :=
  match s.weights with
  | none =>
      let xm := (List.range s.K).map fun k =>
        scaleVec (s.inv_N_comp.getD k 0)
          (vecSumL s.dim ((s.r.zip s.data).map fun p =>
            scaleVec (p.1.getD k 0) p.2))
      { s with x_mean_comp := xm }
  | some w =>
      let xm := (List.range s.K).map fun k =>
        scaleVec (s.inv_N_comp.getD k 0)
          (vecSumL s.dim (((w.zip s.r).zip s.data).map fun p =>
            scaleVec (p.1.1 * p.1.2.getD k 0) p.2))
      { s with x_mean_comp := xm }

/-- `_update_S` (10.53) and its weighted variant:
`S_k = (1/N_k) Σ_n [w_n] r_nk (x_n - x̄_k)(x_n - x̄_k)ᵀ`. -/
def update_S_st (s : VBState) : VBState :=
  match s.weights with
  | none =>
      let Snew := (List.range s.K).map fun k =>
        scaleMat (s.inv_N_comp.getD k 0)
          (matSumL s.dim ((s.r.zip s.data).map fun p =>
            let tmpv := vecSub p.2 (s.x_mean_comp.getD k [])
            scaleMat (p.1.getD k 0) (outerQ tmpv tmpv)))
      { s with S := Snew }
  | some w =>
      let Snew := (List.range s.K).map fun k =>
        scaleMat (s.inv_N_comp.getD k 0)
          (matSumL s.dim (((w.zip s.r).zip s.data).map fun p =>
            let tmpv := vecSub p.2 (s.x_mean_comp.getD k [])
            scaleMat (p.1.1 * p.1.2.getD k 0) (outerQ tmpv tmpv)))
      { s with S := Snew }

/-- `GaussianInference.E_step` (lines 70-81), in source order. -/
def E_step (P : NumPrims) (s : VBState) : VBState :=
  update_S_st (update_x_mean_comp_st (update_N_comp_st P
    (update_r P (update_expectation_ln_pi P
      (update_expectation_gauss_exponent
        (update_expectation_det_ln_lambda P s))))))

/-- `_update_m` (10.61):
`m_k = (1/beta_k)·(beta0_k·m0_k + N_k·x̄_k)`. -/
def update_m_st (s : VBState) : VBState :=
  let mnew := (List.range s.K).map fun k =>
    scaleVec (1 / s.beta.getD k 0)
      (vecAdd (scaleVec (s.beta0.getD k 0) (s.m0.getD k []))
        (scaleVec (s.N_comp.getD k 0) (s.x_mean_comp.getD k [])))
  { s with m := mnew }

/-- `_update_W` (10.62): invert
`inv_W0_k + N_k·(S_k + (beta0_k/(beta0_k+N_k))·(x̄_k-m0_k)(x̄_k-m0_k)ᵀ)`,
assembled in the source's operation order. -/
def update_W_st (P : NumPrims) (s : VBState) : VBState :=
  let Wnew := (List.range s.K).map fun k =>
    let tmp := vecSub (s.x_mean_comp.getD k []) (s.m0.getD k [])
    let cov := outerQ tmp tmp
    let cov := scaleMat (s.beta0.getD k 0 /
      (s.beta0.getD k 0 + s.N_comp.getD k 0)) cov
    let cov := matAdd cov (s.S.getD k [])
    let cov := scaleMat (s.N_comp.getD k 0) cov
    let cov := matAdd cov (s.inv_W0.getD k [])
    P.matInv cov
  { s with W := Wnew }

/-- `GaussianInference.M_step` (lines 83-90): posterior `nu`, `alpha`,
`beta` as prior plus effective count, then `_update_m`, `_update_W`. -/
def M_step (P : NumPrims) (s : VBState) : VBState :=
  let s := { s with nu := vecAdd s.nu0 s.N_comp,
                    alpha := vecAdd s.alpha0 s.N_comp,
                    beta := vecAdd s.beta0 s.N_comp }
  update_W_st P (update_m_st s)

/-- `GaussianInference.update` (lines 516-523): one M-step followed by
one E-step. -/
def updateVB (P : NumPrims) (s : VBState) : VBState :=
  E_step P (M_step P s)

/-! ## Pruning (`GaussianInference.prune`, lines 188-232) -/

/-- `numpy.where(N_comp >= threshold)[0]`: the ascending indices of the
surviving components. -/
def survivingIndices (threshold : ℚ) (N_comp : List ℚ) : List ℕ :=
  (List.range N_comp.length).filter fun k => threshold ≤ N_comp.getD k 0

/-- The in-place shifting loop of `prune` (lines 212-223): walk the
survivors with a running destination index `k_new`, copying entry
`k_old` to `k_new` whenever they differ. -/
def shiftLoop {α : Type} (d : α) : List α → ℕ → List ℕ → List α
  | v, _, [] => v
  | v, k_new, k_old :: rest =>
      let v1 := if k_old ≠ k_new then v.set k_new (v.getD k_old d) else v
      shiftLoop d v1 (k_new + 1) rest

/-- Shift-then-truncate compaction of one per-component array
(lines 212-229): survivors are moved to the front, then the array is
cut to the new `K`. -/
def compactArr {α : Type} (survivors : List ℕ) (v : List α) (d : α) : List α :=
  (shiftLoop d v 0 survivors).take survivors.length

/-- `GaussianInference.prune(threshold)`: a zero (falsy) threshold
returns immediately; otherwise every vector member and every column of
the two `N × K` members is compacted to the survivors, `K` is set to
the survivor count, and a full E-step recomputation follows. -/
def pruneVB (P : NumPrims) (threshold : ℚ) (s : VBState) : VBState :=
  if threshold = 0 then s
  else
    let sur := survivingIndices threshold s.N_comp
    let egeC := s.expectation_gauss_exponent.map fun row => compactArr sur row 0
    let rC := s.r.map fun row => compactArr sur row 0
    let s1 : VBState :=
      { s with
        K := sur.length,
        alpha0 := compactArr sur s.alpha0 0,
        alpha := compactArr sur s.alpha 0,
        beta0 := compactArr sur s.beta0 0,
        beta := compactArr sur s.beta 0,
        expectation_det_ln_lambda := compactArr sur s.expectation_det_ln_lambda 0,
        expectation_ln_pi := compactArr sur s.expectation_ln_pi 0,
        N_comp := compactArr sur s.N_comp 0,
        nu0 := compactArr sur s.nu0 0,
        nu := compactArr sur s.nu 0,
        m0 := compactArr sur s.m0 [],
        m := compactArr sur s.m [],
        S := compactArr sur s.S [],
        W0 := compactArr sur s.W0 [],
        inv_W0 := compactArr sur s.inv_W0 [],
        W := compactArr sur s.W [],
        x_mean_comp := compactArr sur s.x_mean_comp [],
        expectation_gauss_exponent := egeC,
        r := rC }
    E_step P s1

/-! ### Claim C10: frame effect of `update()` -/

/-- The E-step writes only the expectation caches, `log_rho`, `r` and
the sufficient statistics: every hyperparameter array (prior and
posterior), the data, the weights and the dimensions are untouched. -/
theorem E_step_frame (P : NumPrims) (s : VBState) :
    (E_step P s).data = s.data ∧ (E_step P s).weights = s.weights ∧
    (E_step P s).K = s.K ∧ (E_step P s).N = s.N ∧
    (E_step P s).dim = s.dim ∧
    (E_step P s).alpha0 = s.alpha0 ∧ (E_step P s).alpha = s.alpha ∧
    (E_step P s).beta0 = s.beta0 ∧ (E_step P s).beta = s.beta ∧
    (E_step P s).nu0 = s.nu0 ∧ (E_step P s).nu = s.nu ∧
    (E_step P s).m0 = s.m0 ∧ (E_step P s).m = s.m ∧
    (E_step P s).W0 = s.W0 ∧ (E_step P s).inv_W0 = s.inv_W0 ∧
    (E_step P s).W = s.W := by
  cases hw : s.weights <;>
    simp [E_step, update_S_st, update_x_mean_comp_st, update_N_comp_st,
      update_r, update_log_rho, update_expectation_ln_pi,
      update_expectation_gauss_exponent, update_expectation_det_ln_lambda, hw]

/-- The M-step writes only the posterior arrays `nu`, `alpha`, `beta`,
`m`, `W`: priors, data, weights, dimensions, sufficient statistics and
expectation caches are untouched. -/
theorem M_step_frame (P : NumPrims) (s : VBState) :
    (M_step P s).data = s.data ∧ (M_step P s).weights = s.weights ∧
    (M_step P s).K = s.K ∧ (M_step P s).N = s.N ∧
    (M_step P s).dim = s.dim ∧
    (M_step P s).alpha0 = s.alpha0 ∧ (M_step P s).beta0 = s.beta0 ∧
    (M_step P s).nu0 = s.nu0 ∧ (M_step P s).m0 = s.m0 ∧
    (M_step P s).W0 = s.W0 ∧ (M_step P s).inv_W0 = s.inv_W0 := by
  simp [M_step, update_m_st, update_W_st]

/-- C10: `update()` (one M-step, one E-step) leaves every prior
hyperparameter array unchanged — `alpha0`, `beta0`, `nu0`, `m0`, `W0`
and the cached `inv_W0` hold the same values after the call — and also
leaves the data, the weights and the dimensions `K`, `N`, `D`
untouched; only posterior arrays, expectation caches and sufficient
statistics are written. -/
theorem c10_update_preserves_priors (P : NumPrims) (s : VBState) :
    (updateVB P s).alpha0 = s.alpha0 ∧
    (updateVB P s).beta0 = s.beta0 ∧
    (updateVB P s).nu0 = s.nu0 ∧
    (updateVB P s).m0 = s.m0 ∧
    (updateVB P s).W0 = s.W0 ∧
    (updateVB P s).inv_W0 = s.inv_W0 ∧
    (updateVB P s).data = s.data ∧
    (updateVB P s).weights = s.weights ∧
    (updateVB P s).K = s.K ∧
    (updateVB P s).N = s.N ∧
    (updateVB P s).dim = s.dim := by
  obtain ⟨hd, hw, hK, hN, hdim, ha0, -, hb0, -, hn0, -, hm0, -, hW0, hiW0, -⟩ :=
    E_step_frame P (M_step P s)
  obtain ⟨hd2, hw2, hK2, hN2, hdim2, ha02, hb02, hn02, hm02, hW02, hiW02⟩ :=
    M_step_frame P s
  unfold updateVB
  exact ⟨ha0.trans ha02, hb0.trans hb02, hn0.trans hn02, hm0.trans hm02,
    hW0.trans hW02, hiW0.trans hiW02, hd.trans hd2, hw.trans hw2,
    hK.trans hK2, hN.trans hN2, hdim.trans hdim2⟩

/-! ### Claim C3: pruning mechanics -/

/-- `List.set`/`getD` at a different position. -/
theorem getD_set_ne {α : Type} (v : List α) (i p : ℕ) (x d : α)
    (h : i ≠ p) : (v.set i x).getD p d = v.getD p d := by
  simp [List.getD_eq_getElem?_getD, List.getElem?_set_ne h]

/-- `List.set`/`getD` at the written position. -/
theorem getD_set_self {α : Type} (v : List α) (i : ℕ) (x d : α)
    (h : i < v.length) : (v.set i x).getD i d = x := by
  simp [List.getD_eq_getElem?_getD, List.getElem?_set_self, h]

/-- The shifting loop never changes the length. -/
theorem shiftLoop_length {α : Type} (d : α) :
    ∀ (rest : List ℕ) (v : List α) (k : ℕ),
      (shiftLoop d v k rest).length = v.length
  | [], _, _ => rfl
  | k_old :: rest, v, k => by
      simp only [shiftLoop]
      rw [shiftLoop_length d rest]
      split <;> simp

/-- Positions strictly below the running destination index are never
written by the shifting loop. -/
theorem shiftLoop_getD_lt {α : Type} (d : α) :
    ∀ (rest : List ℕ) (v : List α) (k p : ℕ), p < k →
      (shiftLoop d v k rest).getD p d = v.getD p d
  | [], _, _, _, _ => rfl
  | k_old :: rest, v, k, p, hp => by
      simp only [shiftLoop]
      rw [shiftLoop_getD_lt d rest _ (k + 1) p (by omega)]
      split
      · exact getD_set_ne v k p _ d (by omega)
      · rfl

/-- For strictly ascending in-range survivors starting at or above the
destination index, the shifting loop realizes the selection: position
`k + i` of the result holds the entry at the `i`-th survivor index. -/
theorem shiftLoop_getD_main {α : Type} (d : α) :
    ∀ (rest : List ℕ) (v : List α) (k : ℕ),
      rest.Pairwise (· < ·) → (∀ j ∈ rest, k ≤ j ∧ j < v.length) →
      ∀ i, i < rest.length →
        (shiftLoop d v k rest).getD (k + i) d = v.getD (rest.getD i 0) d
  | [], _, _, _, _, i, hi => absurd hi (by simp)
  | k_old :: rest, v, k, hpair, hb, i, hi => by
      obtain ⟨hk, hkv⟩ := hb k_old (List.mem_cons_self _ _)
      have hpair' := List.pairwise_cons.mp hpair
      simp only [shiftLoop]
      match i with
      | 0 =>
          simp only [Nat.add_zero]
          rw [shiftLoop_getD_lt d rest _ (k + 1) k (by omega)]
          by_cases hne : k_old ≠ k
          · rw [if_pos hne, getD_set_self v k _ d (by omega)]
            simp
          · push_neg at hne
            rw [if_neg (by simpa using hne)]
            simp [hne]
      | i' + 1 =>
          have hlen1 : (if k_old ≠ k then v.set k (v.getD k_old d) else v).length
              = v.length := by split <;> simp
          have hb' : ∀ j ∈ rest, k + 1 ≤ j ∧
              j < (if k_old ≠ k then v.set k (v.getD k_old d) else v).length := by
            intro j hj
            refine ⟨by have := hpair'.1 j hj; omega, ?_⟩
            rw [hlen1]
            exact (hb j (List.mem_cons_of_mem _ hj)).2
          have harith : k + (i' + 1) = (k + 1) + i' := by omega
          rw [harith, shiftLoop_getD_main d rest _ (k + 1) hpair'.2 hb' i'
            (by simpa using hi)]
          have hi' : i' < rest.length := by simpa using hi
          have hmem : rest.getD i' 0 ∈ rest := by
            rw [List.getD_eq_getElem rest 0 hi']
            exact List.getElem_mem hi'
          have hgt : k < rest.getD i' 0 := lt_of_le_of_lt hk (hpair'.1 _ hmem)
          have hrhs : (k_old :: rest).getD (i' + 1) 0 = rest.getD i' 0 := by
            simp
          rw [hrhs]
          split
          · exact getD_set_ne v k _ _ d (by omega)
          · rfl

/-- Shift-then-truncate equals the declarative selection: for strictly
ascending in-range survivors, `compactArr` is exactly the list of the
surviving entries in ascending original index order. -/
theorem compactArr_eq_map {α : Type} (survivors : List ℕ) (v : List α)
    (d : α) (hpair : survivors.Pairwise (· < ·))
    (hb : ∀ j ∈ survivors, j < v.length)
    (hlen : survivors.length ≤ v.length) :
    compactArr survivors v d = survivors.map fun j => v.getD j d := by
  have hsl : (shiftLoop d v 0 survivors).length = v.length :=
    shiftLoop_length d survivors v 0
  apply List.ext_getElem
  · simp [compactArr, hsl, hlen]
  · intro i h1 h2
    have hi : i < survivors.length := by simpa using h2
    have hisl : i < (shiftLoop d v 0 survivors).length := by
      rw [hsl]; omega
    have h3 : (compactArr survivors v d)[i] =
        (shiftLoop d v 0 survivors)[i] := by
      simp [compactArr, List.getElem_take]
    rw [h3]
    have h4 : (shiftLoop d v 0 survivors)[i] =
        (shiftLoop d v 0 survivors).getD i d :=
      (List.getD_eq_getElem _ d hisl).symm
    rw [h4]
    have h5 := shiftLoop_getD_main d survivors v 0 hpair
      (fun j hj => ⟨Nat.zero_le _, hb j hj⟩) i hi
    rw [Nat.zero_add] at h5
    rw [h5]
    have h6 : survivors.getD i 0 = survivors[i] :=
      List.getD_eq_getElem survivors 0 hi
    rw [h6]
    simp

/-- Selecting by an index filter over the positions of `v` yields a
sublist of `v` (the survivors keep their relative order). -/
theorem filter_range_map_getD_sublist {α : Type} (d : α) (v : List α)
    (q : ℕ → Bool) :
    ((((List.range v.length).filter q).map fun j => v.getD j d)).Sublist v := by
  induction v using List.reverseRecOn with
  | nil => simp
  | append_singleton xs x ih =>
      rw [List.length_append, List.length_singleton, List.range_succ,
        List.filter_append, List.map_append]
      apply List.Sublist.append
      · have hmap : (((List.range xs.length).filter q).map
            fun j => (xs ++ [x]).getD j d) =
            ((List.range xs.length).filter q).map fun j => xs.getD j d := by
          apply List.map_congr_left
          intro j hj
          have hjlt : j < xs.length :=
            List.mem_range.mp (List.mem_of_mem_filter hj)
          simp [List.getD_eq_getElem?_getD, List.getElem?_append, hjlt]
        rw [hmap]
        exact ih
      · rw [List.filter_singleton]
        cases hq : q xs.length with
        | false => simp
        | true =>
            simp only [cond_true, List.map_cons, List.map_nil]
            have hx : (xs ++ [x]).getD xs.length d = x := by
              simp [List.getD_eq_getElem?_getD, List.getElem?_append_right,
                Nat.le_refl]
            rw [hx]

/-- Membership in `survivingIndices`: exactly the in-range component
indices whose effective count reaches the threshold. -/
theorem survivingIndices_mem (threshold : ℚ) (N_comp : List ℚ) (k : ℕ) :
    k ∈ survivingIndices threshold N_comp ↔
      k < N_comp.length ∧ threshold ≤ N_comp.getD k 0 := by
  simp [survivingIndices, List.mem_filter, List.mem_range]

/-- The survivor indices are strictly ascending. -/
theorem survivingIndices_pairwise (threshold : ℚ) (N_comp : List ℚ) :
    (survivingIndices threshold N_comp).Pairwise (· < ·) :=
  (List.pairwise_lt_range _).filter _

/-- No more survivors than components. -/
theorem survivingIndices_length_le (threshold : ℚ) (N_comp : List ℚ) :
    (survivingIndices threshold N_comp).length ≤ N_comp.length :=
  le_trans (List.length_filter_le _ _) (by simp)

/-- Compaction along `survivingIndices` as a declarative selection, for
any per-component array of the right length. -/
theorem compactArr_surviving {α : Type} (threshold : ℚ) (N_comp : List ℚ)
    (v : List α) (d : α) (hv : v.length = N_comp.length) :
    compactArr (survivingIndices threshold N_comp) v d =
      (survivingIndices threshold N_comp).map fun j => v.getD j d := by
  apply compactArr_eq_map
  · exact survivingIndices_pairwise threshold N_comp
  · intro j hj
    rw [hv]
    exact ((survivingIndices_mem threshold N_comp j).mp hj).1
  · rw [hv]
    exact survivingIndices_length_le threshold N_comp

/-- All per-component arrays have length `K` (rows of the two `N × K`
matrices included); holds of a consistently maintained engine state. -/
def WellFormedK (s : VBState) : Prop :=
  s.N_comp.length = s.K ∧ s.alpha0.length = s.K ∧ s.alpha.length = s.K ∧
  s.beta0.length = s.K ∧ s.beta.length = s.K ∧
  s.expectation_det_ln_lambda.length = s.K ∧
  s.expectation_ln_pi.length = s.K ∧ s.nu0.length = s.K ∧
  s.nu.length = s.K ∧ s.m0.length = s.K ∧ s.m.length = s.K ∧
  s.S.length = s.K ∧ s.W0.length = s.K ∧ s.inv_W0.length = s.K ∧
  s.W.length = s.K ∧ s.x_mean_comp.length = s.K ∧
  (∀ row ∈ s.expectation_gauss_exponent, row.length = s.K) ∧
  (∀ row ∈ s.r, row.length = s.K)

instance (s : VBState) : Decidable (WellFormedK s) := by
  unfold WellFormedK
  infer_instance

/-- C3: `prune(threshold)` with a zero (falsy) threshold returns with
no state change; otherwise (i) the survivors are exactly the components
with `N_comp ≥ threshold`, (ii) the call equals a full E-step
recomputation applied to the state in which every per-component array
(and every row of the two `N × K` matrices) has been replaced by the
selection of the surviving entries in ascending original index order,
truncated to the new `K = #survivors`, (iii) `K` never increases, and
(iv) any such selection is a sublist of the original array, so the
survivors keep their relative order (also across consecutive prunes,
by transitivity of the sublist relation). -/
theorem c3_prune_mechanics (P : NumPrims) (threshold : ℚ) (s : VBState)
    (ht : threshold ≠ 0) (hwf : WellFormedK s) :
    pruneVB P 0 s = s ∧
    (∀ k, k ∈ survivingIndices threshold s.N_comp ↔
      k < s.N_comp.length ∧ threshold ≤ s.N_comp.getD k 0) ∧
    pruneVB P threshold s = E_step P
      { s with
        K := (survivingIndices threshold s.N_comp).length,
        alpha0 := (survivingIndices threshold s.N_comp).map
          fun j => s.alpha0.getD j 0,
        alpha := (survivingIndices threshold s.N_comp).map
          fun j => s.alpha.getD j 0,
        beta0 := (survivingIndices threshold s.N_comp).map
          fun j => s.beta0.getD j 0,
        beta := (survivingIndices threshold s.N_comp).map
          fun j => s.beta.getD j 0,
        expectation_det_ln_lambda := (survivingIndices threshold s.N_comp).map
          fun j => s.expectation_det_ln_lambda.getD j 0,
        expectation_ln_pi := (survivingIndices threshold s.N_comp).map
          fun j => s.expectation_ln_pi.getD j 0,
        N_comp := (survivingIndices threshold s.N_comp).map
          fun j => s.N_comp.getD j 0,
        nu0 := (survivingIndices threshold s.N_comp).map
          fun j => s.nu0.getD j 0,
        nu := (survivingIndices threshold s.N_comp).map
          fun j => s.nu.getD j 0,
        m0 := (survivingIndices threshold s.N_comp).map
          fun j => s.m0.getD j [],
        m := (survivingIndices threshold s.N_comp).map
          fun j => s.m.getD j [],
        S := (survivingIndices threshold s.N_comp).map
          fun j => s.S.getD j [],
        W0 := (survivingIndices threshold s.N_comp).map
          fun j => s.W0.getD j [],
        inv_W0 := (survivingIndices threshold s.N_comp).map
          fun j => s.inv_W0.getD j [],
        W := (survivingIndices threshold s.N_comp).map
          fun j => s.W.getD j [],
        x_mean_comp := (survivingIndices threshold s.N_comp).map
          fun j => s.x_mean_comp.getD j [],
        expectation_gauss_exponent := s.expectation_gauss_exponent.map
          fun row => (survivingIndices threshold s.N_comp).map
            fun j => row.getD j 0,
        r := s.r.map
          fun row => (survivingIndices threshold s.N_comp).map
            fun j => row.getD j 0 } ∧
    (pruneVB P threshold s).K ≤ s.K ∧
    (∀ v : List ℚ, v.length = s.N_comp.length →
      ((survivingIndices threshold s.N_comp).map
        fun j => v.getD j 0).Sublist v) := by
  obtain ⟨hN, ha0, ha, hb0, hb, hdl, hlp, hn0, hn, hm0, hm, hS, hW0, hiW0,
    hW, hx, hege, hr⟩ := hwf
  have hc : ∀ {α : Type} (v : List α) (d : α), v.length = s.K →
      compactArr (survivingIndices threshold s.N_comp) v d =
        (survivingIndices threshold s.N_comp).map fun j => v.getD j d :=
    fun v d hv =>
      compactArr_surviving threshold s.N_comp v d (hv.trans hN.symm)
  have hmain : pruneVB P threshold s = E_step P
      { s with
        K := (survivingIndices threshold s.N_comp).length,
        alpha0 := (survivingIndices threshold s.N_comp).map
          fun j => s.alpha0.getD j 0,
        alpha := (survivingIndices threshold s.N_comp).map
          fun j => s.alpha.getD j 0,
        beta0 := (survivingIndices threshold s.N_comp).map
          fun j => s.beta0.getD j 0,
        beta := (survivingIndices threshold s.N_comp).map
          fun j => s.beta.getD j 0,
        expectation_det_ln_lambda := (survivingIndices threshold s.N_comp).map
          fun j => s.expectation_det_ln_lambda.getD j 0,
        expectation_ln_pi := (survivingIndices threshold s.N_comp).map
          fun j => s.expectation_ln_pi.getD j 0,
        N_comp := (survivingIndices threshold s.N_comp).map
          fun j => s.N_comp.getD j 0,
        nu0 := (survivingIndices threshold s.N_comp).map
          fun j => s.nu0.getD j 0,
        nu := (survivingIndices threshold s.N_comp).map
          fun j => s.nu.getD j 0,
        m0 := (survivingIndices threshold s.N_comp).map
          fun j => s.m0.getD j [],
        m := (survivingIndices threshold s.N_comp).map
          fun j => s.m.getD j [],
        S := (survivingIndices threshold s.N_comp).map
          fun j => s.S.getD j [],
        W0 := (survivingIndices threshold s.N_comp).map
          fun j => s.W0.getD j [],
        inv_W0 := (survivingIndices threshold s.N_comp).map
          fun j => s.inv_W0.getD j [],
        W := (survivingIndices threshold s.N_comp).map
          fun j => s.W.getD j [],
        x_mean_comp := (survivingIndices threshold s.N_comp).map
          fun j => s.x_mean_comp.getD j [],
        expectation_gauss_exponent := s.expectation_gauss_exponent.map
          fun row => (survivingIndices threshold s.N_comp).map
            fun j => row.getD j 0,
        r := s.r.map
          fun row => (survivingIndices threshold s.N_comp).map
            fun j => row.getD j 0 } := by
    simp only [pruneVB, if_neg ht]
    refine congrArg (E_step P) ?_
    have hege2 : s.expectation_gauss_exponent.map
        (fun row => compactArr (survivingIndices threshold s.N_comp) row 0) =
        s.expectation_gauss_exponent.map
          fun row => (survivingIndices threshold s.N_comp).map
            fun j => row.getD j 0 :=
      List.map_congr_left fun row hrow => hc row 0 (hege row hrow)
    have hr2 : s.r.map
        (fun row => compactArr (survivingIndices threshold s.N_comp) row 0) =
        s.r.map
          fun row => (survivingIndices threshold s.N_comp).map
            fun j => row.getD j 0 :=
      List.map_congr_left fun row hrow => hc row 0 (hr row hrow)
    rw [hc s.alpha0 0 ha0, hc s.alpha 0 ha, hc s.beta0 0 hb0, hc s.beta 0 hb,
      hc s.expectation_det_ln_lambda 0 hdl, hc s.expectation_ln_pi 0 hlp,
      hc s.N_comp 0 hN, hc s.nu0 0 hn0, hc s.nu 0 hn, hc s.m0 [] hm0,
      hc s.m [] hm, hc s.S [] hS, hc s.W0 [] hW0, hc s.inv_W0 [] hiW0,
      hc s.W [] hW, hc s.x_mean_comp [] hx, hege2, hr2]
  refine ⟨by simp [pruneVB], fun k => survivingIndices_mem threshold s.N_comp k,
    hmain, ?_, ?_⟩
  · rw [hmain, (E_step_frame P _).2.2.1]
    show (survivingIndices threshold s.N_comp).length ≤ s.K
    rw [← hN]
    exact survivingIndices_length_le threshold s.N_comp
  · intro v hv
    unfold survivingIndices
    rw [← hv]
    exact filter_range_map_getD_sublist 0 v _

/-- Concrete numerical primitives used by the witnesses: any positive
`exp`, any values elsewhere. -/
def samplePrims : NumPrims where
  digamma := fun _ => 0
  logQ := fun _ => 0
  expQ := fun _ => 1
  piQ := 3
  matInv := fun M => M
  matDet := fun _ => 1
  tiny := 1

/-- A small well-formed engine state: `N = 2` one-dimensional samples,
`K = 2` components, the second with effective count `0`. -/
def sampleState : VBState where
  data := [[1], [2]]
  weights := none
  K := 2
  N := 2
  dim := 1
  alpha0 := [1, 1]
  alpha := [1, 1]
  beta0 := [1, 1]
  beta := [1, 1]
  nu0 := [1, 1]
  nu := [1, 1]
  m0 := [[0], [0]]
  m := [[0], [1]]
  W0 := [[[1]], [[1]]]
  inv_W0 := [[[1]], [[1]]]
  W := [[[1]], [[1]]]
  expectation_det_ln_lambda := [0, 0]
  expectation_ln_pi := [0, 0]
  expectation_gauss_exponent := [[0, 0], [0, 0]]
  log_rho := [[0, 0], [0, 0]]
  r := [[1, 0], [0, 1]]
  N_comp := [1, 0]
  inv_N_comp := [1, 1]
  x_mean_comp := [[1], [2]]
  S := [[[0]], [[0]]]

/-- Witness for `c3_prune_mechanics` at `threshold = 1` on
`sampleState` (whose second component has effective count `0 < 1`). -/
theorem c3_prune_mechanics_witness :
    (1 : ℚ) ≠ 0 ∧ WellFormedK sampleState ∧
    (pruneVB samplePrims 1 sampleState).K ≤ sampleState.K :=
  ⟨by norm_num, by decide,
    (c3_prune_mechanics samplePrims 1 sampleState (by norm_num)
      (by decide)).2.2.2.1⟩

/-! ### Claim C7: the responsibility matrix after an E-step -/

/-- Distributing a division over a list sum. -/
theorem sum_map_div (l : List ℚ) (c : ℚ) :
    (l.map fun x => x / c).sum = l.sum / c := by
  induction l with
  | nil => simp
  | cons a t ih => simp [ih, add_div]

/-- Adding a constant to every entry adds `length · t` to the sum. -/
theorem sum_map_add_const (l : List ℚ) (t : ℚ) :
    (l.map fun x => x + t).sum = l.sum + l.length * t := by
  induction l with
  | nil => simp
  | cons a u ih =>
      simp only [List.map_cons, List.sum_cons, ih, List.length_cons]
      push_cast
      ring

/-- Flooring a list of nonnegative entries moves the sum up by at most
`length · tiny`. -/
theorem regularize_sum_bounds (l : List ℚ) (t : ℚ) (ht : 0 ≤ t)
    (hl : ∀ x ∈ l, 0 ≤ x) :
    l.sum ≤ (regularize t l).sum ∧
    (regularize t l).sum ≤ l.sum + l.length * t := by
  constructor
  · have h := List.sum_le_sum (l := l) (f := id) (g := fun x => max x t)
      fun i _ => le_max_left i t
    simpa [regularize] using h
  · have h := List.sum_le_sum (l := l) (f := fun x => max x t)
      (g := fun x => x + t) fun i hi =>
        max_le (le_add_of_nonneg_right ht) (le_add_of_nonneg_left (hl i hi))
    calc (regularize t l).sum ≤ (l.map fun x => x + t).sum := h
      _ = l.sum + l.length * t := sum_map_add_const l t

/-- The normalized softmax row: entries in `(0, 1]`, summing exactly
to 1. -/
theorem softmax_row (rho : List ℚ) (hne : rho ≠ [])
    (hpos : ∀ x ∈ rho, 0 < x) :
    (∀ y ∈ rho.map fun x => x / rho.sum, 0 < y ∧ y ≤ 1) ∧
    (rho.map fun x => x / rho.sum).sum = 1 := by
  have hsum : 0 < rho.sum := List.sum_pos rho hpos hne
  constructor
  · intro y hy
    obtain ⟨x, hx, rfl⟩ := List.mem_map.mp hy
    refine ⟨div_pos (hpos x hx) hsum, ?_⟩
    rw [div_le_one hsum]
    exact List.single_le_sum (fun z hz => le_of_lt (hpos z hz)) x hx
  · rw [sum_map_div, div_self (ne_of_gt hsum)]

/-- C7: after the E-step's `_update_r`, every nonempty row of the
responsibility matrix has all entries in `(0, 1]` and sums to 1 up to
the regularization floor: `1 ≤ sum ≤ 1 + K·tiny`.  The hypotheses are
the facts the source relies on: `exp` is positive and the floor `tiny`
is a positive quantity at most 1. -/
theorem c7_responsibility_rows (P : NumPrims) (s : VBState)
    (hexp : ∀ x, 0 < P.expQ x) (ht0 : 0 < P.tiny) (ht1 : P.tiny ≤ 1) :
    ∀ row ∈ (update_r P s).r, row ≠ [] →
      (∀ x ∈ row, 0 < x ∧ x ≤ 1) ∧
      1 ≤ row.sum ∧ row.sum ≤ 1 + row.length * P.tiny := by
  intro row hrow hne
  have hform : (update_r P s).r =
      ((update_log_rho P s).log_rho.map fun lrow =>
        (lrow.map fun x => P.expQ (x - rowMax lrow)).map fun x =>
          x / (lrow.map fun x => P.expQ (x - rowMax lrow)).sum).map
        (regularize P.tiny) := rfl
  rw [hform] at hrow
  obtain ⟨qrow, hq, rfl⟩ := List.mem_map.mp hrow
  obtain ⟨lrow, hl, rfl⟩ := List.mem_map.mp hq
  set rho := lrow.map fun x => P.expQ (x - rowMax lrow) with hrho
  have hlne : lrow ≠ [] := by
    intro hcon
    apply hne
    simp [hcon, regularize, hrho]
  have hrho_ne : rho ≠ [] := by
    simp [hrho, hlne]
  have hrho_pos : ∀ x ∈ rho, 0 < x := by
    intro x hx
    obtain ⟨y, -, rfl⟩ := List.mem_map.mp hx
    exact hexp _
  have hsoft := softmax_row rho hrho_ne hrho_pos
  have hfloor_entries : ∀ y ∈ regularize P.tiny (rho.map fun x => x / rho.sum),
      0 < y ∧ y ≤ 1 := by
    intro y hy
    obtain ⟨x, hx, rfl⟩ := List.mem_map.mp hy
    exact ⟨lt_of_lt_of_le ht0 (le_max_right x P.tiny),
      max_le ((hsoft.1 x hx).2) ht1⟩
  have hbounds := regularize_sum_bounds (rho.map fun x => x / rho.sum) P.tiny
    (le_of_lt ht0) (fun x hx => le_of_lt (hsoft.1 x hx).1)
  refine ⟨hfloor_entries, ?_, ?_⟩
  · rw [← hsoft.2]
    exact hbounds.1
  · have hlen : (regularize P.tiny (rho.map fun x => x / rho.sum)).length =
        (rho.map fun x => x / rho.sum).length := by simp [regularize]
    rw [hlen]
    calc (regularize P.tiny (rho.map fun x => x / rho.sum)).sum
        ≤ (rho.map fun x => x / rho.sum).sum +
          (rho.map fun x => x / rho.sum).length * P.tiny := hbounds.2
      _ = 1 + (rho.map fun x => x / rho.sum).length * P.tiny := by
          rw [hsoft.2]

/-- A minimal engine state with `K = 1`, `N = 1`, `D = 1`. -/
def tinyState : VBState where
  data := [[1]]
  weights := none
  K := 1
  N := 1
  dim := 1
  alpha0 := [1]
  alpha := [1]
  beta0 := [1]
  beta := [1]
  nu0 := [1]
  nu := [1]
  m0 := [[0]]
  m := [[0]]
  W0 := [[[1]]]
  inv_W0 := [[[1]]]
  W := [[[1]]]
  expectation_det_ln_lambda := [0]
  expectation_ln_pi := [0]
  expectation_gauss_exponent := [[0]]
  log_rho := [[0]]
  r := [[1]]
  N_comp := [1]
  inv_N_comp := [1]
  x_mean_comp := [[1]]
  S := [[[0]]]

/-- Witness for `c7_responsibility_rows` on `tinyState` with
`samplePrims`: the single responsibility row after `_update_r` is
`[1]`, with entries in `(0, 1]` and sum in `[1, 1 + 1·tiny]`. -/
theorem c7_responsibility_rows_witness :
    (∀ x : ℚ, 0 < samplePrims.expQ x) ∧
    (0 : ℚ) < samplePrims.tiny ∧ samplePrims.tiny ≤ 1 ∧
    ((∀ x ∈ ([1] : List ℚ), 0 < x ∧ x ≤ 1) ∧
      1 ≤ ([1] : List ℚ).sum ∧
      ([1] : List ℚ).sum ≤ 1 + ([1] : List ℚ).length * samplePrims.tiny) := by
  have hmem : ([1] : List ℚ) ∈ (update_r samplePrims tinyState).r := by
    norm_num [update_r, update_log_rho, tinyState, samplePrims, rowMax,
      regularize]
  exact ⟨fun x => by norm_num [samplePrims], by norm_num [samplePrims],
    by norm_num [samplePrims],
    c7_responsibility_rows samplePrims tinyState
      (fun x => by norm_num [samplePrims]) (by norm_num [samplePrims])
      (by norm_num [samplePrims]) [1] hmem (by simp)⟩

/-! ### Claim C8: effective counts after an E-step -/

/-- `getD` of a list of nonnegative entries is nonnegative (the
out-of-range default is `0`). -/
theorem getD_nonneg (row : List ℚ) (k : ℕ) (h : ∀ x ∈ row, 0 ≤ x) :
    0 ≤ row.getD k 0 := by
  by_cases hk : k < row.length
  · rw [List.getD_eq_getElem row 0 hk]
    exact h _ (List.getElem_mem hk)
  · rw [List.getD_eq_default row 0 (le_of_not_lt hk)]

/-- Reading a list back by positions: `map getD` over `range length` is
the identity. -/
theorem range_map_getD {α : Type} (row : List α) (d : α) :
    (List.range row.length).map (fun k => row.getD k d) = row := by
  induction row with
  | nil => simp
  | cons a t ih =>
      rw [List.length_cons, List.range_succ_eq_map]
      simp only [List.map_cons, List.getD_cons_zero, List.map_map]
      have hcomp : ((fun k => (a :: t).getD k d) ∘ Nat.succ) =
          fun k => t.getD k d := by
        funext k
        simp
      rw [hcomp, ih]

/-- Sums distribute over pointwise addition of mapped lists. -/
theorem sum_map_add {α : Type} (l : List α) (f g : α → ℚ) :
    (l.map fun x => f x + g x).sum = (l.map f).sum + (l.map g).sum := by
  induction l with
  | nil => simp
  | cons a t ih =>
      simp only [List.map_cons, List.sum_cons, ih]
      ring

/-- Exchanging the two sums: the total of all column sums is the total
of all row sums (`einsum('nk->k')` then `'k->'` equals `'nk->'`). -/
theorem colSums_sum (K : ℕ) (r : List (List ℚ))
    (hrow : ∀ row ∈ r, row.length = K) :
    (colSums K r).sum = (r.map List.sum).sum := by
  induction r with
  | nil =>
      simp only [List.map_nil, List.sum_nil]
      exact List.sum_eq_zero (by simp [colSums])
  | cons row rest ih =>
      have hrowK := hrow row (List.mem_cons_self _ _)
      have h1 : colSums K (row :: rest) = (List.range K).map
          fun k => row.getD k 0 + ((rest.map fun rr => rr.getD k 0)).sum := by
        simp [colSums]
      rw [h1, sum_map_add]
      have h2 : (List.range K).map (fun k => row.getD k 0) = row := by
        rw [← hrowK]
        exact range_map_getD row 0
      have h3 : ((List.range K).map
          fun k => ((rest.map fun rr => rr.getD k 0)).sum) = colSums K rest :=
        rfl
      rw [h2, h3, ih fun rr hr => hrow rr (List.mem_cons_of_mem _ hr)]
      simp

/-- Column sums of a matrix with nonnegative entries are nonnegative. -/
theorem colSums_nonneg (K : ℕ) (r : List (List ℚ))
    (hr : ∀ row ∈ r, ∀ x ∈ row, 0 ≤ x) :
    ∀ x ∈ colSums K r, 0 ≤ x := by
  intro x hx
  simp only [colSums, List.mem_map, List.mem_range] at hx
  obtain ⟨k, -, rfl⟩ := hx
  apply List.sum_nonneg
  intro y hy
  obtain ⟨row, hrow, rfl⟩ := List.mem_map.mp hy
  exact getD_nonneg row k (hr row hrow)

/-- The sum of a scaled vector. -/
theorem sum_scaleVec (c : ℚ) (v : List ℚ) : (scaleVec c v).sum = c * v.sum := by
  induction v with
  | nil => simp [scaleVec]
  | cons a t ih =>
      simp only [scaleVec, List.map_cons, List.sum_cons] at ih ⊢
      rw [ih]
      ring

/-- Rows that each sum to one contribute their count to the total. -/
theorem sum_const_rows (r : List (List ℚ)) (h : ∀ row ∈ r, row.sum = 1) :
    (r.map List.sum).sum = r.length := by
  induction r with
  | nil => simp
  | cons row rest ih =>
      simp only [List.map_cons, List.sum_cons, List.length_cons,
        h row (List.mem_cons_self _ _),
        ih fun rr hr => h rr (List.mem_cons_of_mem _ hr)]
      push_cast
      ring

/-- Sum of `c * x / S` over a list. -/
theorem sum_map_mul_div (w : List ℚ) (c S : ℚ) :
    (w.map fun x => c * x / S).sum = c * w.sum / S := by
  induction w with
  | nil => simp
  | cons a t ih =>
      simp only [List.map_cons, List.sum_cons, ih]
      ring

/-- Constructor weight normalization (lines 48-52):
`self.weights = self.N * weights / weights.sum()`. -/
def normalizeWeights (N : ℕ) (w : List ℚ) : List ℚ :=
  w.map fun x => (N : ℚ) * x / w.sum

/-- `VBMerge._update_N_comp` (lines 889-893):
`einsum('l,lk', Nomega, r)` followed by the regularization floor. -/
def update_N_comp_merge (tiny : ℚ) (K : ℕ) (Nomega : List ℚ)
    (r : List (List ℚ)) : List ℚ :=
  regularize tiny (colSums K ((Nomega.zip r).map fun p => scaleVec p.1 p.2))

/-- Shared bound for the two weighted effective-count formulas: the sum
of the floored column sums of the row-scaled responsibility matrix lies
within `[Σw, Σw + K·tiny]` when every row sums to one. -/
theorem weighted_colSums_bounds (tiny : ℚ) (K : ℕ) (w : List ℚ)
    (r : List (List ℚ)) (ht : 0 ≤ tiny) (hlen : w.length = r.length)
    (hw : ∀ x ∈ w, 0 ≤ x)
    (hrows : ∀ row ∈ r, row.length = K ∧ row.sum = 1 ∧ ∀ x ∈ row, 0 ≤ x) :
    w.sum ≤ (regularize tiny
      (colSums K ((w.zip r).map fun p => scaleVec p.1 p.2))).sum ∧
    (regularize tiny
      (colSums K ((w.zip r).map fun p => scaleVec p.1 p.2))).sum ≤
      w.sum + K * tiny := by
  set scaled := (w.zip r).map fun p => scaleVec p.1 p.2 with hscaled
  have hslen : ∀ row ∈ scaled, row.length = K := by
    intro row hrow
    obtain ⟨p, hp, rfl⟩ := List.mem_map.mp hrow
    have h2 := (List.of_mem_zip hp).2
    simp [scaleVec, (hrows p.2 h2).1]
  have hsnn : ∀ row ∈ scaled, ∀ x ∈ row, 0 ≤ x := by
    intro row hrow x hx
    obtain ⟨p, hp, rfl⟩ := List.mem_map.mp hrow
    obtain ⟨y, hy, rfl⟩ := List.mem_map.mp hx
    exact mul_nonneg (hw p.1 (List.of_mem_zip hp).1)
      ((hrows p.2 (List.of_mem_zip hp).2).2.2 y hy)
  have hsum : (colSums K scaled).sum = w.sum := by
    rw [colSums_sum K scaled hslen]
    have h1 : scaled.map List.sum = (w.zip r).map fun p => p.1 * p.2.sum := by
      rw [hscaled, List.map_map]
      exact List.map_congr_left fun p _ => sum_scaleVec p.1 p.2
    rw [h1]
    have h2 : ((w.zip r).map fun p => p.1 * p.2.sum) =
        (w.zip r).map fun p => p.1 := by
      apply List.map_congr_left
      intro p hp
      rw [(hrows p.2 (List.of_mem_zip hp).2).2.1, mul_one]
    rw [h2]
    have h3 : (w.zip r).map Prod.fst = w :=
      List.map_fst_zip w r (le_of_eq hlen)
    exact congrArg List.sum h3
  have hclen : (colSums K scaled).length = K := by simp [colSums]
  have hbounds := regularize_sum_bounds (colSums K scaled) tiny ht
    (colSums_nonneg K scaled hsnn)
  constructor
  · rw [← hsum]
    exact hbounds.1
  · calc (regularize tiny (colSums K scaled)).sum
        ≤ (colSums K scaled).sum + (colSums K scaled).length * tiny :=
          hbounds.2
      _ = w.sum + K * tiny := by rw [hsum, hclen]

/-- C8: immediately after an E-step the effective counts account for
the total sample weight, up to the regularization floor which can only
add up to `K·tiny`: in unweighted raw mode `sum(N_comp)` lies in
`[N, N + K·tiny]` where `N` is the number of samples (each row of `r`
sums to one); in weighted raw mode the total is the sum of the weights
(and the constructor's normalization makes that sum equal `N`); in
merge mode it is `sum(Nomega)`. -/
theorem c8_effective_counts (P : NumPrims) (s : VBState) (ht : 0 ≤ P.tiny)
    (hrows : ∀ row ∈ s.r, row.length = s.K ∧ row.sum = 1 ∧
      ∀ x ∈ row, 0 ≤ x) :
    (s.weights = none →
      (s.r.length : ℚ) ≤ ((update_N_comp_st P s).N_comp).sum ∧
      ((update_N_comp_st P s).N_comp).sum ≤ s.r.length + s.K * P.tiny) ∧
    (∀ w, s.weights = some w → w.length = s.r.length →
      (∀ x ∈ w, 0 ≤ x) →
      w.sum ≤ ((update_N_comp_st P s).N_comp).sum ∧
      ((update_N_comp_st P s).N_comp).sum ≤ w.sum + s.K * P.tiny) ∧
    (∀ (N : ℕ) (w : List ℚ), w.sum ≠ 0 →
      (normalizeWeights N w).sum = N) ∧
    (∀ (tiny : ℚ) (K : ℕ) (Nomega : List ℚ) (r : List (List ℚ)),
      0 ≤ tiny → Nomega.length = r.length → (∀ x ∈ Nomega, 0 ≤ x) →
      (∀ row ∈ r, row.length = K ∧ row.sum = 1 ∧ ∀ x ∈ row, 0 ≤ x) →
      Nomega.sum ≤ (update_N_comp_merge tiny K Nomega r).sum ∧
      (update_N_comp_merge tiny K Nomega r).sum ≤
        Nomega.sum + K * tiny) := by
  refine ⟨?_, ?_, ?_, ?_⟩
  · intro hw
    have hN : (update_N_comp_st P s).N_comp =
        regularize P.tiny (colSums s.K s.r) := by
      simp [update_N_comp_st, hw]
    rw [hN]
    have hlenK : ∀ row ∈ s.r, row.length = s.K := fun row hr =>
      (hrows row hr).1
    have hsum : (colSums s.K s.r).sum = s.r.length := by
      rw [colSums_sum s.K s.r hlenK,
        sum_const_rows s.r fun row hr => (hrows row hr).2.1]
    have hnn := colSums_nonneg s.K s.r fun row hr => (hrows row hr).2.2
    have hb := regularize_sum_bounds (colSums s.K s.r) P.tiny ht hnn
    constructor
    · rw [← hsum]
      exact hb.1
    · have hclen : (colSums s.K s.r).length = s.K := by simp [colSums]
      calc (regularize P.tiny (colSums s.K s.r)).sum
          ≤ (colSums s.K s.r).sum + (colSums s.K s.r).length * P.tiny :=
            hb.2
        _ = s.r.length + s.K * P.tiny := by rw [hsum, hclen]
  · intro w hw hlen hwnn
    have hN : (update_N_comp_st P s).N_comp = regularize P.tiny
        (colSums s.K ((w.zip s.r).map fun p => scaleVec p.1 p.2)) := by
      simp [update_N_comp_st, hw]
    rw [hN]
    exact weighted_colSums_bounds P.tiny s.K w s.r ht hlen hwnn hrows
  · intro N w hwsum
    unfold normalizeWeights
    rw [sum_map_mul_div, mul_div_assoc, div_self hwsum, mul_one]
  · intro tiny K Nomega r htn hlen hn hrows2
    unfold update_N_comp_merge
    exact weighted_colSums_bounds tiny K Nomega r htn hlen hn hrows2

/-- Witness for `c8_effective_counts`: normalized weights `[2, 2]` with
`N = 4` sum to `4`. -/
theorem c8_effective_counts_witness :
    ((0 : ℚ) ≤ samplePrims.tiny) ∧ (([2, 2] : List ℚ).sum ≠ 0) ∧
    (normalizeWeights 4 [2, 2]).sum = ((4 : ℕ) : ℚ) := by
  have hrows : ∀ row ∈ tinyState.r, row.length = tinyState.K ∧
      row.sum = 1 ∧ ∀ x ∈ row, 0 ≤ x := by
    intro row hrow
    simp only [tinyState] at hrow
    simp only [List.mem_singleton] at hrow
    subst hrow
    refine ⟨by norm_num [tinyState], by norm_num, ?_⟩
    intro x hx
    simp only [List.mem_singleton] at hx
    subst hx
    norm_num
  exact ⟨by norm_num [samplePrims], by norm_num,
    (c8_effective_counts samplePrims tinyState
      (by norm_num [samplePrims]) hrows).2.2.1 4 [2, 2] (by norm_num)⟩

/-! ## Output builder (`GaussianInference.make_mixture`, lines 92-147)

`MixtureDensity` and `Gauss` live in the proposal module outside these
sources; a component is therefore a plain mean/covariance record, the
mixture is the pair of component and weight lists (the consuming
constructor normalizes the weights, not this code), and a singular
matrix — reported by raising inside the `try` block in the source — is
modelled by the abstract inverse returning `none`. -/

/-- An output Gaussian component (`Gauss(m[k], cov)`). -/
structure GaussQ where
  mu : List ℚ
  cov : List (List ℚ)
deriving DecidableEq

/-- The loop body of `make_mixture` acting on the accumulated
(components, weights, skipped) triple for the enumerated pair
`p = (k, W_k)`: skip on non-positive Dirichlet mode weight, skip on
`nu_k ≤ dim`, skip on a singular `(nu_k - dim)·W_k`, otherwise append
the component and its weight. -/
def make_mixture_step
    (matInvOpt : List (List ℚ) → Option (List (List ℚ))) (dim : ℕ)
    (alpha nu : List ℚ) (m : List (List ℚ))
    (acc : List GaussQ × List ℚ × List ℕ) (p : ℕ × List (List ℚ)) :
    List GaussQ × List ℚ × List ℕ :=
  let pi := alpha.getD p.1 0 - 1
  if pi ≤ 0 then (acc.1, acc.2.1, acc.2.2 ++ [p.1])
  else if nu.getD p.1 0 ≤ (dim : ℚ) then (acc.1, acc.2.1, acc.2.2 ++ [p.1])
  else
    match matInvOpt (scaleMat (nu.getD p.1 0 - (dim : ℚ)) p.2) with
    | none => (acc.1, acc.2.1, acc.2.2 ++ [p.1])
    | some cov =>
        (acc.1 ++ [⟨m.getD p.1 [], cov⟩], acc.2.1 ++ [pi], acc.2.2)

/-- `GaussianInference.make_mixture`: fold the loop body over
`enumerate(self.W)`, starting from empty lists. -/
def make_mixture
    (matInvOpt : List (List ℚ) → Option (List (List ℚ))) (dim : ℕ)
    (alpha nu : List ℚ) (m : List (List ℚ))
    (W : List (List (List ℚ))) : List GaussQ × List ℚ × List ℕ :=
  W.enum.foldl (make_mixture_step matInvOpt dim alpha nu m) ([], [], [])

/-- The spec's per-component description of the output builder:
component `k` is included exactly when the Dirichlet mode weight
`alpha_k - 1` is positive, `nu_k > D`, and `(nu_k - D)·W_k` is
invertible; an included component carries the mean `m_k`, the
covariance `inv((nu_k - D)·W_k)` and the weight `alpha_k - 1`. -/
def modeComponentSpec
    (matInvOpt : List (List ℚ) → Option (List (List ℚ))) (dim : ℕ)
    (alpha nu : List ℚ) (m : List (List ℚ)) (k : ℕ)
    (Wk : List (List ℚ)) : Option (GaussQ × ℚ) :=
  let pi := alpha.getD k 0 - 1
  if pi ≤ 0 then none
  else if nu.getD k 0 ≤ (dim : ℚ) then none
  else
    match matInvOpt (scaleMat (nu.getD k 0 - (dim : ℚ)) Wk) with
    | none => none
    | some cov => some (⟨m.getD k [], cov⟩, pi)

/-- One step of the fold, phrased through the declarative component. -/
theorem make_mixture_step_eq
    (matInvOpt : List (List ℚ) → Option (List (List ℚ))) (dim : ℕ)
    (alpha nu : List ℚ) (m : List (List ℚ))
    (acc : List GaussQ × List ℚ × List ℕ) (p : ℕ × List (List ℚ)) :
    make_mixture_step matInvOpt dim alpha nu m acc p =
      match modeComponentSpec matInvOpt dim alpha nu m p.1 p.2 with
      | none => (acc.1, acc.2.1, acc.2.2 ++ [p.1])
      | some cw => (acc.1 ++ [cw.1], acc.2.1 ++ [cw.2], acc.2.2) := by
  simp only [make_mixture_step, modeComponentSpec]
  by_cases h1 : alpha.getD p.1 0 - 1 ≤ 0
  · rw [if_pos h1, if_pos h1]
  · rw [if_neg h1, if_neg h1]
    by_cases h2 : nu.getD p.1 0 ≤ (dim : ℚ)
    · rw [if_pos h2, if_pos h2]
    · rw [if_neg h2, if_neg h2]
      cases matInvOpt (scaleMat (nu.getD p.1 0 - (dim : ℚ)) p.2) <;> rfl

/-- The fold accumulates exactly the filtered selections, appended to
whatever was already in the accumulator. -/
theorem make_mixture_foldl
    (matInvOpt : List (List ℚ) → Option (List (List ℚ))) (dim : ℕ)
    (alpha nu : List ℚ) (m : List (List ℚ)) :
    ∀ (l : List (ℕ × List (List ℚ))) (cs : List GaussQ) (ws : List ℚ)
      (sk : List ℕ),
      l.foldl (make_mixture_step matInvOpt dim alpha nu m) (cs, ws, sk) =
        (cs ++ l.filterMap (fun p =>
          (modeComponentSpec matInvOpt dim alpha nu m p.1 p.2).map Prod.fst),
         ws ++ l.filterMap (fun p =>
          (modeComponentSpec matInvOpt dim alpha nu m p.1 p.2).map Prod.snd),
         sk ++ (l.filter (fun p =>
          (modeComponentSpec matInvOpt dim alpha nu m p.1 p.2).isNone)).map
            Prod.fst)
  | [], cs, ws, sk => by simp
  | p :: rest, cs, ws, sk => by
      rw [List.foldl_cons, make_mixture_step_eq]
      cases hmc : modeComponentSpec matInvOpt dim alpha nu m p.1 p.2 with
      | none =>
          rw [make_mixture_foldl matInvOpt dim alpha nu m rest]
          simp [List.filterMap_cons, List.filter_cons, hmc]
      | some cw =>
          rw [make_mixture_foldl matInvOpt dim alpha nu m rest]
          simp [List.filterMap_cons, List.filter_cons, hmc]

/-- C9: `make_mixture` returns exactly the components whose Dirichlet
mode weight `alpha_k - 1` is positive, whose `nu_k` exceeds `D`, and
whose `(nu_k - D)·W_k` is invertible — in order, with mean `m_k`,
covariance `inv((nu_k - D)·W_k)` and weight `alpha_k - 1` — while every
other component index lands in the (non-fatal) skipped list, so the
call is total and the output merely has at most as many components as
`W`. -/
theorem c9_make_mixture_mode
    (matInvOpt : List (List ℚ) → Option (List (List ℚ))) (dim : ℕ)
    (alpha nu : List ℚ) (m : List (List ℚ))
    (W : List (List (List ℚ))) :
    make_mixture matInvOpt dim alpha nu m W =
      (W.enum.filterMap (fun p =>
        (modeComponentSpec matInvOpt dim alpha nu m p.1 p.2).map Prod.fst),
       W.enum.filterMap (fun p =>
        (modeComponentSpec matInvOpt dim alpha nu m p.1 p.2).map Prod.snd),
       (W.enum.filter (fun p =>
        (modeComponentSpec matInvOpt dim alpha nu m p.1 p.2).isNone)).map
          Prod.fst) ∧
    (∀ (k : ℕ) (Wk : List (List ℚ)),
      (modeComponentSpec matInvOpt dim alpha nu m k Wk).isSome = true ↔
        (0 < alpha.getD k 0 - 1 ∧ (dim : ℚ) < nu.getD k 0 ∧
          (matInvOpt (scaleMat (nu.getD k 0 - (dim : ℚ)) Wk)).isSome =
            true)) ∧
    (∀ (k : ℕ) (Wk cov : List (List ℚ)),
      matInvOpt (scaleMat (nu.getD k 0 - (dim : ℚ)) Wk) = some cov →
      0 < alpha.getD k 0 - 1 → (dim : ℚ) < nu.getD k 0 →
      modeComponentSpec matInvOpt dim alpha nu m k Wk =
        some (⟨m.getD k [], cov⟩, alpha.getD k 0 - 1)) ∧
    (make_mixture matInvOpt dim alpha nu m W).1.length ≤ W.length := by
  have hmain := make_mixture_foldl matInvOpt dim alpha nu m W.enum [] [] []
  have h1 : make_mixture matInvOpt dim alpha nu m W =
      (W.enum.filterMap (fun p =>
        (modeComponentSpec matInvOpt dim alpha nu m p.1 p.2).map Prod.fst),
       W.enum.filterMap (fun p =>
        (modeComponentSpec matInvOpt dim alpha nu m p.1 p.2).map Prod.snd),
       (W.enum.filter (fun p =>
        (modeComponentSpec matInvOpt dim alpha nu m p.1 p.2).isNone)).map
          Prod.fst) := by
    unfold make_mixture
    rw [hmain]
    simp
  refine ⟨h1, ?_, ?_, ?_⟩
  · intro k Wk
    simp only [modeComponentSpec]
    constructor
    · intro hs
      by_cases hp : alpha.getD k 0 - 1 ≤ 0
      · rw [if_pos hp] at hs
        exact absurd hs (by simp)
      · by_cases hn : nu.getD k 0 ≤ (dim : ℚ)
        · rw [if_neg hp, if_pos hn] at hs
          exact absurd hs (by simp)
        · refine ⟨not_le.mp hp, not_le.mp hn, ?_⟩
          rw [if_neg hp, if_neg hn] at hs
          cases hmi : matInvOpt (scaleMat (nu.getD k 0 - (dim : ℚ)) Wk) with
          | none =>
              rw [hmi] at hs
              exact absurd hs (by simp)
          | some cov => simp [hmi]
    · rintro ⟨hp, hn, hs⟩
      rw [if_neg (not_le.mpr hp), if_neg (not_le.mpr hn)]
      cases hmi : matInvOpt (scaleMat (nu.getD k 0 - (dim : ℚ)) Wk) with
      | none =>
          rw [hmi] at hs
          exact absurd hs (by simp)
      | some cov => rfl
  · intro k Wk cov hmi hp hn
    simp only [modeComponentSpec]
    rw [if_neg (not_le.mpr hp), if_neg (not_le.mpr hn), hmi]
  · rw [h1]
    calc (W.enum.filterMap (fun p =>
          (modeComponentSpec matInvOpt dim alpha nu m p.1 p.2).map
            Prod.fst)).length
        ≤ W.enum.length := List.length_filterMap_le _ _
      _ = W.length := List.enum_length

/-- Witness for `c9_make_mixture_mode`: with `alpha_0 = 2`,
`nu_0 = 3 > dim = 1` and an invertible scaled matrix, component 0 is
included with mean `m_0`, the computed inverse as covariance, and
weight `alpha_0 - 1`. -/
theorem c9_make_mixture_mode_witness :
    modeComponentSpec (fun _ => some [[9]]) 1 [2] [3] [[7]] 0 [[5]] =
      some (⟨[7], [[9]]⟩, (2 : ℚ) - 1) :=
  (c9_make_mixture_mode (fun _ => some [[9]]) 1 [2] [3] [[7]]
    [[[5]]]).2.2.1 0 [[5]] [[9]] rfl (by norm_num) (by norm_num)
